import Mathlib

/-!
Verification development for the Lua-MUTM molecular UTM repository.

Python strings are modelled as lists of characters (`Str`), Python floats
that only ever hold exact decimal values are modelled as rationals or as
(mantissa, decimal-places) pairs, and the stochastic primitives of the
`random` module are modelled by explicit streams passed as arguments.
-/

/-- Python strings are modelled as lists of characters. -/
abbrev Str := List Char

/-- The decimal digit character for a digit `d < 10` (used to embed Python's
decimal rendering of nonnegative integers in f-strings). -/
def digitChar (d : ℕ) : Char :=
  match d with
  | 0 => '0' | 1 => '1' | 2 => '2' | 3 => '3' | 4 => '4'
  | 5 => '5' | 6 => '6' | 7 => '7' | 8 => '8' | _ => '9'

/-- Fuel-bounded digit extraction; the fuel only needs to dominate the digit
count, which `fuel = n` always does. -/
def decDigitsAux (fuel : ℕ) (n : ℕ) : List Char :=
  match fuel with
  | 0 => [digitChar n]
  | f + 1 =>
    if n < 10 then [digitChar n]
    else decDigitsAux f (n / 10) ++ [digitChar (n % 10)]

/-- Decimal digits of a natural number, most significant first: the embedding
of Python's `str(n)` / `f"{n}"` for a nonnegative int. -/
def decDigits (n : ℕ) : List Char := decDigitsAux n n

theorem decDigitsAux_fuel {n : ℕ} : ∀ f g : ℕ, n ≤ f → n ≤ g →
    decDigitsAux f n = decDigitsAux g n := by
  induction n using Nat.strong_induction_on with
  | _ n ih =>
    intro f g hf hg
    cases f with
    | zero =>
      have hn : n = 0 := by omega
      subst hn
      cases g with
      | zero => rfl
      | succ g => simp [decDigitsAux]
    | succ f =>
      cases g with
      | zero =>
        have hn : n = 0 := by omega
        subst hn
        simp [decDigitsAux]
      | succ g =>
        simp only [decDigitsAux]
        split
        · rfl
        · rw [ih (n / 10) (Nat.div_lt_self (by omega) (by omega)) f g
            (by omega) (by omega)]

theorem decDigits_eq (n : ℕ) :
    decDigits n = if n < 10 then [digitChar n]
      else decDigits (n / 10) ++ [digitChar (n % 10)] := by
  cases n with
  | zero => rfl
  | succ m =>
    show decDigitsAux (m + 1) (m + 1) = _
    simp only [decDigitsAux]
    by_cases h10 : m + 1 < 10
    · rw [if_pos h10, if_pos h10]
    · rw [if_neg h10, if_neg h10,
        @decDigitsAux_fuel ((m + 1) / 10) m ((m + 1) / 10) (by omega) (by omega)]
      rfl

theorem digitChar_isDigit (d : ℕ) (h : d < 10) : (digitChar d).isDigit = true := by
  interval_cases d <;> decide

theorem digitChar_toNat (d : ℕ) (h : d < 10) : (digitChar d).toNat = 48 + d := by
  interval_cases d <;> decide

theorem isDigit_ne {c x : Char} (h : c.isDigit = true) (hx : x.isDigit = false) : c ≠ x := by
  intro he; rw [he, hx] at h; cases h

theorem decDigits_ne_nil (n : ℕ) : decDigits n ≠ [] := by
  rw [decDigits_eq]
  split <;> simp

theorem decDigits_all_digit (n : ℕ) : ∀ c ∈ decDigits n, c.isDigit = true := by
  induction n using Nat.strong_induction_on with
  | _ n ih =>
    rw [decDigits_eq]
    split
    · intro c hc
      rw [List.mem_singleton] at hc
      subst hc
      exact digitChar_isDigit n (by omega)
    · intro c hc
      rw [List.mem_append] at hc
      rcases hc with hc | hc
      · exact ih (n / 10) (Nat.div_lt_self (by omega) (by omega)) c hc
      · rw [List.mem_singleton] at hc
        subst hc
        exact digitChar_isDigit _ (Nat.mod_lt _ (by omega))

/-- One step of reading a decimal numeral (the accumulator update of the
numeral-value fold). -/
def digitStep (a : ℕ) (c : Char) : ℕ := 10 * a + (c.toNat - 48)

/-- The numeric value of a list of decimal digit characters. -/
def natOfDigits (l : Str) : ℕ := l.foldl digitStep 0

theorem natOfDigits_from (s : ℕ) (l : Str) :
    l.foldl digitStep s = s * 10 ^ l.length + natOfDigits l := by
  induction l generalizing s with
  | nil => simp [natOfDigits]
  | cons c cs ih =>
    rw [natOfDigits, List.foldl_cons, List.foldl_cons, ih, ih (digitStep 0 c)]
    simp only [List.length_cons, digitStep]
    ring

theorem natOfDigits_append (a b : Str) :
    natOfDigits (a ++ b) = natOfDigits a * 10 ^ b.length + natOfDigits b := by
  rw [natOfDigits, List.foldl_append, natOfDigits_from]
  rfl

theorem natOfDigits_decDigits (n : ℕ) : natOfDigits (decDigits n) = n := by
  induction n using Nat.strong_induction_on with
  | _ n ih =>
    rw [decDigits_eq]
    split
    · simp [natOfDigits, digitStep, digitChar_toNat n (by omega)]
    · rw [natOfDigits_append, ih (n / 10) (Nat.div_lt_self (by omega) (by omega))]
      simp [natOfDigits, digitStep, digitChar_toNat (n % 10) (Nat.mod_lt _ (by omega))]
      omega

theorem decDigits_length_le (n e : ℕ) (he : 1 ≤ e) (h : n < 10 ^ e) :
    (decDigits n).length ≤ e := by
  induction n using Nat.strong_induction_on generalizing e with
  | _ n ih =>
    rw [decDigits_eq]
    split
    · simpa using he
    · have he2 : 2 ≤ e := by
        by_contra hlt
        have : e = 1 := by omega
        subst this
        simp at h
        omega
      have hdiv : n / 10 < 10 ^ (e - 1) := by
        rw [Nat.div_lt_iff_lt_mul (by omega)]
        calc n < 10 ^ e := h
        _ = 10 ^ (e - 1) * 10 := by
              rw [← pow_succ]
              congr 1
              omega
      have := ih (n / 10) (Nat.div_lt_self (by omega) (by omega)) (e - 1) (by omega) hdiv
      simp only [List.length_append, List.length_singleton]
      omega

/-- Strip spaces from both ends of a string (the CRN grammar treats
whitespace around tokens as insignificant). -/
def trimWs (l : Str) : Str :=
  ((l.dropWhile (· = ' ')).reverse.dropWhile (· = ' ')).reverse

theorem dropWhile_eq_self_of_forall {p : Char → Bool} {l : Str}
    (h : ∀ c ∈ l, ¬ p c) : l.dropWhile p = l := by
  cases l with
  | nil => rfl
  | cons a as =>
    rw [List.dropWhile_cons, if_neg]
    simpa using h a (by simp)

theorem dropWhile_replicate_append {p : Char → Bool} {a : Char} (hp : p a) (n : ℕ) (l : Str) :
    (List.replicate n a ++ l).dropWhile p = l.dropWhile p := by
  induction n with
  | zero => simp
  | succ k ih => simp [List.replicate_succ, List.dropWhile_cons, hp, ih]

theorem dropWhile_replicate {p : Char → Bool} {a : Char} (hp : p a) (n : ℕ) :
    (List.replicate n a).dropWhile p = [] := by
  simpa using dropWhile_replicate_append hp n []

theorem trimWs_pad {w : Str} (hw : ∀ c ∈ w, c ≠ ' ') (a b : ℕ) :
    trimWs (List.replicate a ' ' ++ w ++ List.replicate b ' ') = w := by
  cases w with
  | nil =>
    simp only [List.append_nil, List.nil_append]
    rw [trimWs, dropWhile_replicate_append (by simp), dropWhile_replicate (by simp)]
    simp
  | cons c cs =>
    rw [trimWs, List.append_assoc, dropWhile_replicate_append (by simp)]
    simp only [List.cons_append]
    rw [List.dropWhile_cons, if_neg (by simpa using hw c (by simp))]
    rw [show (c :: (cs ++ List.replicate b ' ')).reverse
        = List.replicate b ' ' ++ (cs.reverse ++ [c]) by
      simp [List.reverse_cons, List.reverse_append, List.reverse_replicate]]
    rw [dropWhile_replicate_append (by simp)]
    rw [dropWhile_eq_self_of_forall (by
      intro x hx
      rcases List.mem_append.mp hx with hx | hx
      · simpa using hw x (by simp [List.mem_reverse.mp hx])
      · rw [List.mem_singleton] at hx
        subst hx
        simpa using hw x (by simp))]
    simp

theorem trimWs_of_no_space {w : Str} (hw : ∀ c ∈ w, c ≠ ' ') : trimWs w = w := by
  have := trimWs_pad hw 0 0
  simpa using this

/-- Split a string at every occurrence of a separator character (the
line-splitting and token-splitting primitive of the CRN text format). -/
def splitCh (sep : Char) : Str → List Str
  | [] => [[]]
  | a :: as =>
    if a = sep then [] :: splitCh sep as
    else
      match splitCh sep as with
      | [] => [[a]]
      | l :: ls => (a :: l) :: ls

theorem splitCh_ne_nil (sep : Char) (l : Str) : splitCh sep l ≠ [] := by
  cases l with
  | nil => simp [splitCh]
  | cons a as =>
    rw [splitCh]
    split
    · simp
    · split <;> simp

theorem splitCh_of_not_mem {sep : Char} {l : Str} (h : sep ∉ l) : splitCh sep l = [l] := by
  induction l with
  | nil => rfl
  | cons a as ih =>
    rw [splitCh, if_neg (by rintro rfl; exact h (by simp))]
    rw [ih (fun hm => h (by simp [hm]))]

theorem splitCh_append_sep {sep : Char} {x : Str} (h : sep ∉ x) (y : Str) :
    splitCh sep (x ++ sep :: y) = x :: splitCh sep y := by
  induction x with
  | nil => simp [splitCh]
  | cons a as ih =>
    rw [List.cons_append, splitCh, if_neg (by rintro rfl; exact h (by simp))]
    rw [ih (fun hm => h (by simp [hm]))]

/-- Split a string at the first `->` arrow, returning the parts before and
after it (the reactants/products separator of the CRN grammar). -/
def splitArrow : Str → Option (Str × Str)
  | [] => none
  | a :: rest =>
    if a = '-' ∧ rest.head? = some '>' then some ([], rest.tail)
    else (splitArrow rest).map (fun p => (a :: p.1, p.2))

theorem splitArrow_append {x : Str} (h : '-' ∉ x) (y : Str) :
    splitArrow (x ++ '-' :: '>' :: y) = some (x, y) := by
  induction x with
  | nil => simp [splitArrow]
  | cons a as ih =>
    rw [List.cons_append, splitArrow,
      if_neg (by rintro ⟨rfl, _⟩; exact h (by simp))]
    rw [ih (fun hm => h (by simp [hm]))]
    rfl

theorem not_mem_of_all_digit {x : Char} (hx : x.isDigit = false) {l : Str}
    (hl : ∀ c ∈ l, c.isDigit = true) : x ∉ l := by
  intro hm
  have := hl x hm
  rw [hx] at this
  cases this

/-- A character may start a species identifier: the `[A-Za-z_]` class of the
CRN grammar. -/
def isIdentStart (c : Char) : Bool := c.isAlpha || c = '_'

/-- A character may continue a species identifier: the `[A-Za-z0-9_]` class of
the CRN grammar. -/
def isIdentChar (c : Char) : Bool := c.isAlphanum || c = '_'

/-- Species names are case-sensitive identifiers matching
`[A-Za-z_][A-Za-z0-9_]*` (section 4.1 of the specification). -/
def validIdent : Str → Bool
  | [] => false
  | c :: cs => isIdentStart c && cs.all isIdentChar

/-- A decimal rate literal: mantissa together with the number of digits after
the decimal point, denoting the value `mantissa / 10 ^ places`.  The `<float>`
token of a CRN text line always carries such an exact decimal value. -/
structure DecLit where
  mantissa : ℕ
  places : ℕ
deriving DecidableEq, Repr

/-- The digits of `m` left-padded with zeros to `e` positions (the fractional
part of a fixed-point decimal rendering). -/
def padDigits (e m : ℕ) : Str :=
  List.replicate (e - (decDigits m).length) '0' ++ decDigits m

/-- Render a decimal literal back to text, with exactly `places` digits after
the point (and no point at all when `places = 0`). -/
def printDec (r : DecLit) : Str :=
  if r.places = 0 then decDigits r.mantissa
  else decDigits (r.mantissa / 10 ^ r.places) ++
    '.' :: padDigits r.places (r.mantissa % 10 ^ r.places)

/-- Read a `<float>` token: digits with at most one decimal point, at least
one digit on each present side. -/
def parseDec (l : Str) : Option DecLit :=
  match splitCh '.' l with
  | [a] =>
      if !a.isEmpty && a.all Char.isDigit then some ⟨natOfDigits a, 0⟩ else none
  | [a, b] =>
      if !a.isEmpty && !b.isEmpty && a.all Char.isDigit && b.all Char.isDigit then
        some ⟨natOfDigits (a ++ b), b.length⟩
      else none
  | _ => none

theorem natOfDigits_replicate_zero (k : ℕ) : natOfDigits (List.replicate k '0') = 0 := by
  induction k with
  | zero => rfl
  | succ n ih =>
    rw [List.replicate_succ, natOfDigits, List.foldl_cons]
    have : digitStep 0 '0' = 0 := by decide
    rw [this]
    exact ih

theorem padDigits_all_digit (e m : ℕ) : ∀ c ∈ padDigits e m, c.isDigit = true := by
  intro c hc
  rcases List.mem_append.mp hc with hc | hc
  · rw [List.eq_of_mem_replicate hc]
    decide
  · exact decDigits_all_digit m c hc

theorem padDigits_ne_nil (e m : ℕ) : padDigits e m ≠ [] := by
  rw [padDigits]
  intro h
  rcases List.append_eq_nil.mp h with ⟨_, h2⟩
  exact decDigits_ne_nil m h2

theorem padDigits_length (e m : ℕ) (he : 1 ≤ e) (h : m < 10 ^ e) :
    (padDigits e m).length = e := by
  have := decDigits_length_le m e he h
  simp only [padDigits, List.length_append, List.length_replicate]
  omega

theorem natOfDigits_padDigits (e m : ℕ) : natOfDigits (padDigits e m) = m := by
  rw [padDigits, natOfDigits_append, natOfDigits_replicate_zero,
    natOfDigits_decDigits]
  simp

theorem parseDec_printDec (r : DecLit) : parseDec (printDec r) = some r := by
  obtain ⟨m, e⟩ := r
  by_cases he : e = 0
  · subst he
    have h1 : splitCh '.' (printDec ⟨m, 0⟩) = [decDigits m] := by
      rw [show printDec ⟨m, 0⟩ = decDigits m by simp [printDec]]
      exact splitCh_of_not_mem
        (not_mem_of_all_digit (by decide) (decDigits_all_digit m))
    have hne := decDigits_ne_nil m
    have hall := decDigits_all_digit m
    simp [parseDec, h1, natOfDigits_decDigits, List.all_eq_true,
      List.isEmpty_iff, hne]
    exact hall
  · have hsplit : splitCh '.' (printDec ⟨m, e⟩) =
        [decDigits (m / 10 ^ e), padDigits e (m % 10 ^ e)] := by
      rw [show printDec ⟨m, e⟩
          = decDigits (m / 10 ^ e) ++ '.' :: padDigits e (m % 10 ^ e) by
        simp [printDec, he]]
      rw [splitCh_append_sep
        (not_mem_of_all_digit (by decide) (decDigits_all_digit _))]
      rw [splitCh_of_not_mem
        (not_mem_of_all_digit (by decide) (padDigits_all_digit _ _))]
    have h2 := decDigits_ne_nil (m / 10 ^ e)
    have h3 := padDigits_ne_nil e (m % 10 ^ e)
    have h4 := decDigits_all_digit (m / 10 ^ e)
    have h5 := padDigits_all_digit e (m % 10 ^ e)
    have hlen : (padDigits e (m % 10 ^ e)).length = e :=
      padDigits_length _ _ (by omega) (Nat.mod_lt _ (by positivity))
    simp [parseDec, hsplit, List.all_eq_true, h2, h3, hlen,
      List.isEmpty_iff, natOfDigits_append, natOfDigits_decDigits,
      natOfDigits_padDigits]
    exact ⟨⟨h4, h5⟩, by rw [Nat.mul_comm]; exact Nat.div_add_mod m (10 ^ e)⟩

/-- Modelled from the spec: the `Reaction` data type of section 3.  The core
`crn_engine` modules (`crn_parser`, `reaction_executor`) are absent from the
repository source; only their package exports exist.  A reaction is an
ordered list of reactant species and of product species (repetition encodes
stoichiometry) together with its decimal rate literal. -/
structure Reaction where
  reactants : List Str
  products : List Str
  rate : DecLit
deriving DecidableEq, Repr

/-- Modelled from the spec: a `ReactionNetwork` holds the species (keys
unique, in declaration order) together with the reactions (section 3). -/
structure ReactionNetwork where
  species : List Str
  reactions : List Reaction
deriving DecidableEq, Repr

/-- First-occurrence deduplication: species are created at parse time from
the declarations implied by reactions, in order of first appearance. -/
def firstDedup (l : List Str) : List Str :=
  l.foldl (fun acc a => if a ∈ acc then acc else acc ++ [a]) []

/-- The species referenced by a list of reactions, in declaration order. -/
def speciesOf (rs : List Reaction) : List Str :=
  firstDedup (rs.flatMap (fun r => r.reactants ++ r.products))

/-- Join a list of strings with a separator (the building block of the
serialized reaction line). -/
def interc (sep : Str) : List Str → Str
  | [] => []
  | [x] => x
  | x :: xs => x ++ sep ++ interc sep xs

/-- The token separating species on one side of a reaction line. -/
def sepPlus : Str := [' ', '+', ' ']

/-- The keyword introducing the rate field of a reaction line. -/
def rateKey : Str := ['r', 'a', 't', 'e', '=']

/-- Modelled from the spec (sections 4.1 and 6): serialize one reaction as
`reactant[ + reactant]* -> product[ + product]*, rate=<float>`. -/
def serializeReaction (r : Reaction) : Str :=
  interc sepPlus r.reactants ++ [' ', '-', '>', ' '] ++
    interc sepPlus r.products ++ [',', ' '] ++ rateKey ++ printDec r.rate

/-- Parse one side of a reaction: species names separated by `+`, whitespace
around each name insignificant; an empty or malformed name (and hence an
empty species list) is a parse failure. -/
def parseSide (l : Str) : Except String (List Str) :=
  let toks := (splitCh '+' l).map trimWs
  if toks.all validIdent then .ok toks else .error "empty or invalid species list"

/-- Parse the `rate=<float>` field of a reaction line. -/
def parseRateField (f : Str) : Except String DecLit :=
  let rf := trimWs f
  if rf.take 5 = rateKey then
    match parseDec (rf.drop 5) with
    | some d => .ok d
    | none => .error "non-numeric rate"
  else .error "malformed rate field"

/-- Modelled from the spec (section 4.1): parse the body of a reaction line
(already stripped of surrounding whitespace) against the grammar
`reactant[+reactant]* -> product[+product]*, rate=<float>`. -/
def parseReaction (t : Str) : Except String Reaction :=
  match splitArrow t with
  | none => .error "missing arrow"
  | some (lhs, rhs) =>
    match parseSide lhs with
    | .error e => .error e
    | .ok rtoks =>
      match splitCh ',' rhs with
      | [prods, ratef] =>
        match parseSide prods with
        | .error e => .error e
        | .ok ptoks =>
          match parseRateField ratef with
          | .error e => .error e
          | .ok d => .ok ⟨rtoks, ptoks, d⟩
      | _ => .error "malformed rate segment"

/-- Modelled from the spec (section 4.1): classify one line of CRN text.
Blank lines and `--` comments carry no reaction; any other line must match
the reaction grammar. -/
def parseLine (l : Str) : Except String (Option Reaction) :=
  let t := trimWs l
  if t.isEmpty then .ok none
  else if t.take 2 = ['-', '-'] then .ok none
  else (parseReaction t).map some

/-- Parse a list of lines, collecting the reactions in order. -/
def parseLines : List Str → Except String (List Reaction)
  | [] => .ok []
  | l :: ls =>
    match parseLine l with
    | .error e => .error e
    | .ok r? =>
      match parseLines ls with
      | .error e => .error e
      | .ok rest =>
        .ok (match r? with | none => rest | some r => r :: rest)

/-- Modelled from the spec (sections 4.1 and 6): parse a whole CRN text into
a `ReactionNetwork`, the species set being created from the declarations
implied by the reactions in order of first appearance. -/
def parseCRN (text : Str) : Except String ReactionNetwork :=
  match parseLines (splitCh '\n' text) with
  | .error e => .error e
  | .ok rs => .ok ⟨speciesOf rs, rs⟩

/-- Join lines into a text in which every line, the last included, is
terminated by a newline (the shape of all CRN text this repository emits). -/
def linesToText (L : List Str) : Str := (L.map (· ++ ['\n'])).flatten

/-- Modelled from the spec (section 6): serialize a network, one reaction
per line. -/
def serializeCRN (n : ReactionNetwork) : Str :=
  linesToText (n.reactions.map serializeReaction)

/-- A reaction is well-formed when both species lists are nonempty and every
species name is a valid identifier (section 4.1). -/
def WFReaction (r : Reaction) : Prop :=
  r.reactants ≠ [] ∧ r.products ≠ [] ∧
    (∀ s ∈ r.reactants, validIdent s = true) ∧
    ∀ s ∈ r.products, validIdent s = true

/-- Network invariant (section 3): all reactions well-formed and the species
set exactly the one implied by the reactions, in declaration order. -/
def WFNetwork (n : ReactionNetwork) : Prop :=
  (∀ r ∈ n.reactions, WFReaction r) ∧ n.species = speciesOf n.reactions

theorem identStart_isIdentChar {c : Char} (h : isIdentStart c = true) :
    isIdentChar c = true := by
  simp only [isIdentStart, Bool.or_eq_true] at h
  simp only [isIdentChar, Char.isAlphanum, Bool.or_eq_true]
  tauto

theorem validIdent_chars {s : Str} (h : validIdent s = true) :
    ∀ c ∈ s, isIdentChar c = true := by
  match s with
  | [] => simp [validIdent] at h
  | c :: cs =>
    rw [validIdent, Bool.and_eq_true, List.all_eq_true] at h
    intro x hx
    rcases List.mem_cons.mp hx with rfl | hx
    · exact identStart_isIdentChar h.1
    · exact h.2 x hx

theorem validIdent_ne_nil {s : Str} (h : validIdent s = true) : s ≠ [] := by
  intro he
  subst he
  simp [validIdent] at h

theorem identChar_ne {c x : Char} (h : isIdentChar c = true)
    (hx : isIdentChar x = false) : c ≠ x := by
  intro he
  rw [he, hx] at h
  cases h

theorem identChar_ne_space {c : Char} (h : isIdentChar c = true) : c ≠ ' ' :=
  identChar_ne h (by decide)

theorem mem_interc {sep : Str} {c : Char} {L : List Str} (h : c ∈ interc sep L) :
    c ∈ sep ∨ ∃ x ∈ L, c ∈ x := by
  induction L with
  | nil => simp [interc] at h
  | cons t ts ih =>
    cases ts with
    | nil =>
      right
      exact ⟨t, by simp, h⟩
    | cons u us =>
      rw [show interc sep (t :: u :: us) = t ++ sep ++ interc sep (u :: us)
        from rfl] at h
      rcases List.mem_append.mp h with h1 | h1
      · rcases List.mem_append.mp h1 with h2 | h2
        · exact Or.inr ⟨t, by simp, h2⟩
        · exact Or.inl h2
      · rcases ih h1 with h2 | ⟨x, hx, hcx⟩
        · exact Or.inl h2
        · exact Or.inr ⟨x, by simp [hx], hcx⟩

theorem interc_sepPlus_chars {L : List Str}
    (hL : ∀ t ∈ L, ∀ c ∈ t, isIdentChar c = true) :
    ∀ c ∈ interc sepPlus L, c = ' ' ∨ c = '+' ∨ isIdentChar c = true := by
  intro c hc
  rcases mem_interc hc with hs | ⟨x, hx, hcx⟩
  · simp only [sepPlus, List.mem_cons, List.mem_singleton] at hs
    tauto
  · exact Or.inr (Or.inr (hL x hx c hcx))

theorem interc_sepPlus_not_mem {L : List Str}
    (hL : ∀ t ∈ L, ∀ c ∈ t, isIdentChar c = true)
    {x : Char} (hx1 : x ≠ ' ') (hx2 : x ≠ '+') (hx3 : isIdentChar x = false) :
    x ∉ interc sepPlus L := by
  intro hm
  rcases interc_sepPlus_chars hL x hm with h | h | h
  · exact hx1 h
  · exact hx2 h
  · rw [hx3] at h
    cases h

theorem printDec_chars (d : DecLit) : ∀ c ∈ printDec d, c.isDigit = true ∨ c = '.' := by
  rw [printDec]
  split
  · intro c hc
    exact Or.inl (decDigits_all_digit _ c hc)
  · intro c hc
    rcases List.mem_append.mp hc with hc | hc
    · exact Or.inl (decDigits_all_digit _ c hc)
    · rcases List.mem_cons.mp hc with rfl | hc
      · exact Or.inr rfl
      · exact Or.inl (padDigits_all_digit _ _ c hc)

theorem printDec_not_mem (d : DecLit) {x : Char} (hx1 : x.isDigit = false)
    (hx2 : x ≠ '.') : x ∉ printDec d := by
  intro hm
  rcases printDec_chars d x hm with h | h
  · rw [hx1] at h
    cases h
  · exact hx2 h

theorem printDec_ne_nil (d : DecLit) : printDec d ≠ [] := by
  rw [printDec]
  split
  · exact decDigits_ne_nil _
  · simp

theorem splitPlus_trim (ts : List Str) :
    (∀ t ∈ ts, ∀ c ∈ t, isIdentChar c = true) → ts ≠ [] → ∀ a b : ℕ,
    (splitCh '+' (List.replicate a ' ' ++ interc sepPlus ts ++
      List.replicate b ' ')).map trimWs = ts := by
  induction ts with
  | nil =>
    intro _ hne
    cases hne rfl
  | cons t ts ih =>
    intro h _ a b
    have ht : ∀ c ∈ t, isIdentChar c = true := h t (by simp)
    cases ts with
    | nil =>
      rw [show interc sepPlus [t] = t from rfl]
      rw [splitCh_of_not_mem (by
        intro hm
        rcases List.mem_append.mp hm with hm | hm
        · rcases List.mem_append.mp hm with hm | hm
          · exact absurd (List.eq_of_mem_replicate hm) (by decide)
          · have := ht _ hm
            rw [show isIdentChar '+' = false from by decide] at this
            cases this
        · exact absurd (List.eq_of_mem_replicate hm) (by decide))]
      simp only [List.map_cons, List.map_nil]
      rw [trimWs_pad (fun c hc => identChar_ne_space (ht c hc)) a b]
    | cons u us =>
      have hshape : List.replicate a ' ' ++ interc sepPlus (t :: u :: us) ++
          List.replicate b ' '
          = (List.replicate a ' ' ++ t ++ List.replicate 1 ' ') ++
            '+' :: (List.replicate 1 ' ' ++ interc sepPlus (u :: us) ++
              List.replicate b ' ') := by
        rw [show interc sepPlus (t :: u :: us)
          = t ++ sepPlus ++ interc sepPlus (u :: us) from rfl]
        simp [sepPlus, List.append_assoc]
      rw [hshape, splitCh_append_sep (by
        intro hm
        rcases List.mem_append.mp hm with hm | hm
        · rcases List.mem_append.mp hm with hm | hm
          · exact absurd (List.eq_of_mem_replicate hm) (by decide)
          · have := ht _ hm
            rw [show isIdentChar '+' = false from by decide] at this
            cases this
        · exact absurd (List.eq_of_mem_replicate hm) (by decide))]
      simp only [List.map_cons]
      rw [trimWs_pad (fun c hc => identChar_ne_space (ht c hc)) a 1]
      rw [ih (fun x hx c hc => h x (by simp [hx]) c hc) (by simp) 1 b]

theorem parseSide_pad (ts : List Str) (hv : ∀ t ∈ ts, validIdent t = true)
    (hne : ts ≠ []) (a b : ℕ) :
    parseSide (List.replicate a ' ' ++ interc sepPlus ts ++
      List.replicate b ' ') = .ok ts := by
  have hc : ∀ t ∈ ts, ∀ c ∈ t, isIdentChar c = true :=
    fun t ht c hcm => validIdent_chars (hv t ht) c hcm
  simp only [parseSide]
  rw [splitPlus_trim ts hc hne a b, if_pos (List.all_eq_true.mpr hv)]

theorem parseRateField_pad (d : DecLit) (a : ℕ) :
    parseRateField (List.replicate a ' ' ++ (rateKey ++ printDec d)) = .ok d := by
  have htrim : trimWs (List.replicate a ' ' ++ (rateKey ++ printDec d))
      = rateKey ++ printDec d := by
    have hns : ∀ c ∈ rateKey ++ printDec d, c ≠ ' ' := by
      intro c hc
      rcases List.mem_append.mp hc with hc | hc
      · simp only [rateKey, List.mem_cons, List.not_mem_nil, or_false] at hc
        rcases hc with rfl | rfl | rfl | rfl | rfl <;> decide
      · rcases printDec_chars d c hc with h | h
        · exact isDigit_ne h (by decide)
        · subst h
          decide
    have := trimWs_pad hns a 0
    simpa using this
  simp only [parseRateField, htrim]
  rw [List.take_left' (by rfl), if_pos rfl, List.drop_left' (by rfl),
    parseDec_printDec]

theorem trimWs_eq_self_of_ends {l : Str} {c d : Char} (h1 : l.head? = some c)
    (hc : c ≠ ' ') (h2 : l.getLast? = some d) (hd : d ≠ ' ') : trimWs l = l := by
  rw [trimWs]
  have e1 : l.dropWhile (· = ' ') = l := by
    cases l with
    | nil => rfl
    | cons a as =>
      simp only [List.head?_cons, Option.some.injEq] at h1
      subst h1
      rw [List.dropWhile_cons, if_neg]
      simpa using hc
  rw [e1]
  have e2 : l.reverse.dropWhile (· = ' ') = l.reverse := by
    have hh : l.reverse.head? = some d := by
      rw [List.head?_reverse]
      exact h2
    cases hrev : l.reverse with
    | nil => rfl
    | cons a as =>
      rw [hrev] at hh
      simp only [List.head?_cons, Option.some.injEq] at hh
      subst hh
      rw [List.dropWhile_cons, if_neg]
      simpa using hd
  rw [e2, List.reverse_reverse]

theorem interc_cons_shape (sep : Str) (x : Str) (xs : List Str) :
    ∃ u, interc sep (x :: xs) = x ++ u := by
  cases xs with
  | nil => exact ⟨[], by simp [interc]⟩
  | cons y ys => exact ⟨sep ++ interc sep (y :: ys), by simp [interc, List.append_assoc]⟩

theorem parseReaction_serializeReaction (r : Reaction) (h : WFReaction r) :
    parseReaction (serializeReaction r) = .ok r := by
  obtain ⟨R, P, d⟩ := r
  obtain ⟨hRne, hPne, hRv, hPv⟩ := h
  have hRc : ∀ t ∈ R, ∀ c ∈ t, isIdentChar c = true :=
    fun t ht c hc => validIdent_chars (hRv t ht) c hc
  have hPc : ∀ t ∈ P, ∀ c ∈ t, isIdentChar c = true :=
    fun t ht c hc => validIdent_chars (hPv t ht) c hc
  have harrow : splitArrow (serializeReaction ⟨R, P, d⟩)
      = some (interc sepPlus R ++ [' '],
          ' ' :: (interc sepPlus P ++ [',', ' '] ++ rateKey ++ printDec d)) := by
    rw [show serializeReaction ⟨R, P, d⟩
        = (interc sepPlus R ++ [' ']) ++ '-' :: '>' ::
          (' ' :: (interc sepPlus P ++ [',', ' '] ++ rateKey ++ printDec d)) by
      simp [serializeReaction, List.append_assoc]]
    exact splitArrow_append (by
      intro hm
      rcases List.mem_append.mp hm with hm | hm
      · exact interc_sepPlus_not_mem hRc (by decide) (by decide) (by decide) hm
      · simp at hm) _
  have hcomma : splitCh ','
      (' ' :: (interc sepPlus P ++ [',', ' '] ++ rateKey ++ printDec d))
      = [' ' :: interc sepPlus P, ' ' :: (rateKey ++ printDec d)] := by
    rw [show (' ' :: (interc sepPlus P ++ [',', ' '] ++ rateKey ++ printDec d))
        = (' ' :: interc sepPlus P) ++ ',' :: (' ' :: (rateKey ++ printDec d)) by
      simp [List.append_assoc]]
    rw [splitCh_append_sep (by
      intro hm
      rcases List.mem_cons.mp hm with hm | hm
      · exact absurd hm (by decide)
      · exact interc_sepPlus_not_mem hPc (by decide) (by decide) (by decide) hm)]
    rw [splitCh_of_not_mem (by
      intro hm
      rcases List.mem_cons.mp hm with hm | hm
      · exact absurd hm (by decide)
      · rcases List.mem_append.mp hm with hm | hm
        · revert hm
          decide
        · exact printDec_not_mem d (by decide) (by decide) hm)]
  have hside1 : parseSide (interc sepPlus R ++ [' ']) = .ok R := by
    have := parseSide_pad R hRv hRne 0 1
    simpa using this
  have hside2 : parseSide (' ' :: interc sepPlus P) = .ok P := by
    have := parseSide_pad P hPv hPne 1 0
    simpa using this
  have hrate : parseRateField (' ' :: (rateKey ++ printDec d)) = .ok d := by
    have := parseRateField_pad d 1
    simpa using this
  simp only [parseReaction, harrow, hcomma, hside1, hside2, hrate]

theorem parseLine_serializeReaction (r : Reaction) (h : WFReaction r) :
    parseLine (serializeReaction r) = .ok (some r) := by
  obtain ⟨R, P, d⟩ := r
  have hr := h
  obtain ⟨hRne, hPne, hRv, hPv⟩ := h
  obtain ⟨t0, R', rfl⟩ : ∃ t0 R', R = t0 :: R' := by
    cases R with
    | nil => cases hRne rfl
    | cons a b => exact ⟨a, b, rfl⟩
  obtain ⟨c0, t0', rfl⟩ : ∃ c0 t0', t0 = c0 :: t0' := by
    have hv := hRv t0 (by simp)
    cases t0 with
    | nil => simp [validIdent] at hv
    | cons a b => exact ⟨a, b, rfl⟩
  have hstart : isIdentStart c0 = true := by
    have hv := hRv (c0 :: t0') (by simp)
    rw [validIdent, Bool.and_eq_true] at hv
    exact hv.1
  obtain ⟨u, hu⟩ := interc_cons_shape sepPlus (c0 :: t0') R'
  have hL : serializeReaction ⟨(c0 :: t0') :: R', P, d⟩
      = c0 :: (t0' ++ u ++ ([' ', '-', '>', ' '] ++ interc sepPlus P ++
          [',', ' '] ++ rateKey ++ printDec d)) := by
    simp [serializeReaction, hu, List.append_assoc]
  have hlastd : (printDec d).getLast? = some ((printDec d).getLast (printDec_ne_nil d)) :=
    List.getLast?_eq_getLast _ _
  have hlast : (serializeReaction ⟨(c0 :: t0') :: R', P, d⟩).getLast?
      = some ((printDec d).getLast (printDec_ne_nil d)) := by
    rw [show serializeReaction ⟨(c0 :: t0') :: R', P, d⟩
        = (interc sepPlus ((c0 :: t0') :: R') ++ [' ', '-', '>', ' '] ++
            interc sepPlus P ++ [',', ' '] ++ rateKey) ++ printDec d by
      simp [serializeReaction, List.append_assoc]]
    rw [List.getLast?_append, hlastd]
    rfl
  have hdds : (printDec d).getLast (printDec_ne_nil d) ≠ ' ' := by
    rcases printDec_chars d _ (List.getLast_mem (printDec_ne_nil d)) with h1 | h1
    · exact isDigit_ne h1 (by decide)
    · rw [h1]
      decide
  have htr : trimWs (serializeReaction ⟨(c0 :: t0') :: R', P, d⟩)
      = serializeReaction ⟨(c0 :: t0') :: R', P, d⟩ :=
    trimWs_eq_self_of_ends (by rw [hL]; rfl)
      (identChar_ne_space (identStart_isIdentChar hstart)) hlast hdds
  simp only [parseLine, htr]
  rw [if_neg (by rw [hL]; simp)]
  rw [if_neg (by
    intro hc
    rw [hL] at hc
    simp only [List.take_succ_cons, List.cons.injEq] at hc
    obtain ⟨h1, _⟩ := hc
    subst h1
    exact absurd hstart (by decide))]
  rw [parseReaction_serializeReaction _ hr]
  rfl

theorem serializeReaction_no_newline (r : Reaction) (h : WFReaction r) :
    '\n' ∉ serializeReaction r := by
  obtain ⟨R, P, d⟩ := r
  obtain ⟨_, _, hRv, hPv⟩ := h
  have hRc : ∀ t ∈ R, ∀ c ∈ t, isIdentChar c = true :=
    fun t ht c hc => validIdent_chars (hRv t ht) c hc
  have hPc : ∀ t ∈ P, ∀ c ∈ t, isIdentChar c = true :=
    fun t ht c hc => validIdent_chars (hPv t ht) c hc
  intro hm
  simp only [serializeReaction, List.mem_append] at hm
  rcases hm with ((((hm | hm) | hm) | hm) | hm) | hm
  · exact interc_sepPlus_not_mem hRc (by decide) (by decide) (by decide) hm
  · revert hm
    decide
  · exact interc_sepPlus_not_mem hPc (by decide) (by decide) (by decide) hm
  · revert hm
    decide
  · revert hm
    decide
  · exact printDec_not_mem d (by decide) (by decide) hm

theorem splitCh_linesToText {L : List Str} (h : ∀ l ∈ L, '\n' ∉ l) :
    splitCh '\n' (linesToText L) = L ++ [[]] := by
  induction L with
  | nil => rfl
  | cons l ls ih =>
    rw [linesToText]
    simp only [List.map_cons, List.flatten_cons]
    rw [show (l ++ ['\n']) ++ (ls.map (· ++ ['\n'])).flatten
        = l ++ '\n' :: (ls.map (· ++ ['\n'])).flatten by simp]
    rw [splitCh_append_sep (h l (by simp))]
    rw [show ((ls.map (· ++ ['\n'])).flatten : Str) = linesToText ls from rfl]
    rw [ih (fun x hx => h x (by simp [hx]))]
    rfl

theorem parseLines_serialized (rs : List Reaction) (h : ∀ r ∈ rs, WFReaction r) :
    parseLines (rs.map serializeReaction ++ [[]]) = .ok rs := by
  induction rs with
  | nil => rfl
  | cons r rs ih =>
    simp only [List.map_cons, List.cons_append, parseLines, List.append_eq]
    rw [parseLine_serializeReaction r (h r (by simp))]
    rw [ih (fun x hx => h x (by simp [hx]))]

/-- C5: for every well-formed `ReactionNetwork`, parsing its serialized CRN
text yields an equal `ReactionNetwork`.  Well-formedness is the network
invariant of section 3: nonempty reactant/product lists, valid identifiers,
and a species set equal to the one implied by the reactions in declaration
order (a network whose species set disagreed with its reactions could not
survive any parse, since the parser derives species from reactions). -/
theorem C5_parse_serialize_roundtrip (n : ReactionNetwork) (h : WFNetwork n) :
    parseCRN (serializeCRN n) = .ok n := by
  obtain ⟨sp, rs⟩ := n
  obtain ⟨hwf, hsp⟩ := h
  have hnl : ∀ l ∈ rs.map serializeReaction, '\n' ∉ l := by
    intro l hl
    rcases List.mem_map.mp hl with ⟨r, hr, rfl⟩
    exact serializeReaction_no_newline r (hwf r hr)
  simp only [parseCRN, serializeCRN]
  rw [splitCh_linesToText hnl, parseLines_serialized rs hwf]
  simp only [Except.ok.injEq, ReactionNetwork.mk.injEq, and_true]
  exact hsp.symm

instance (r : Reaction) : Decidable (WFReaction r) := by
  unfold WFReaction
  infer_instance

instance (n : ReactionNetwork) : Decidable (WFNetwork n) := by
  unfold WFNetwork
  infer_instance

/-- A small concrete network in the shape the SAT encoder emits, used to
witness the round-trip property. -/
def sampleNetwork : ReactionNetwork :=
  ⟨speciesOf [⟨["x0_false".toList], ["x0_true".toList], ⟨10, 1⟩⟩,
      ⟨["x0_true".toList], ["x0_false".toList], ⟨10, 1⟩⟩],
    [⟨["x0_false".toList], ["x0_true".toList], ⟨10, 1⟩⟩,
      ⟨["x0_true".toList], ["x0_false".toList], ⟨10, 1⟩⟩]⟩

/-- Witness for C5: the round trip evaluated at a concrete two-reaction
network. -/
theorem C5_parse_serialize_roundtrip_witness :
    WFNetwork sampleNetwork ∧
      parseCRN (serializeCRN sampleNetwork) = .ok sampleNetwork :=
  ⟨by decide, C5_parse_serialize_roundtrip sampleNetwork (by decide)⟩

/-- Python `repr` of a bool, as interpolated into f-strings. -/
def pyBoolRepr (b : Bool) : Str := if b then "True".toList else "False".toList

/-- Python `repr` of one literal `(var_idx, negated)`. -/
def pyLitRepr (l : ℕ × Bool) : Str :=
  '(' :: decDigits l.1 ++ ", ".toList ++ pyBoolRepr l.2 ++ [')']

/-- Python `repr` of a clause (a list of literal tuples), as interpolated
into the clause comment line of `create_sat_crn`. -/
def pyClauseRepr (c : List (ℕ × Bool)) : Str :=
  '[' :: (interc ", ".toList (c.map pyLitRepr) ++ [']'])

/-- The header comment block of `create_sat_crn` (the triple-quoted literal
opening the emitted text, three comment lines and one blank line). -/
def satHeader : List Str :=
  ["-- 3-SAT Chemical Reaction Network".toList,
   "-- Variables represented as molecular species (TRUE/FALSE states)".toList,
   "-- Clauses as reactions that must be satisfied".toList,
   []]

/-- The two flip reactions `create_sat_crn` emits for one variable
(sat_benchmark.py, lines 46-48). -/
def satVarLines (v : Str) : List Str :=
  [v ++ ['_', 'f', 'a', 'l', 's', 'e'] ++ [' ', '-', '>', ' '] ++
     v ++ ['_', 't', 'r', 'u', 'e'] ++ [',', ' '] ++ rateKey ++ ['1', '.', '0'],
   v ++ ['_', 't', 'r', 'u', 'e'] ++ [' ', '-', '>', ' '] ++
     v ++ ['_', 'f', 'a', 'l', 's', 'e'] ++ [',', ' '] ++ rateKey ++ ['1', '.', '0']]

/-- The species standing for one literal of a clause: the variable name
suffixed with `_false` when the literal is negated and `_true` otherwise
(sat_benchmark.py, lines 55-58). -/
def satLitSpecies (vars : List Str) (l : ℕ × Bool) : Str :=
  vars.getD l.1 [] ++ '_' ::
    (if l.2 then ['f', 'a', 'l', 's', 'e'] else ['t', 'r', 'u', 'e'])

/-- The block `create_sat_crn` emits for clause number `i`: one comment line
and one reaction per literal into the clause's satisfaction species
(sat_benchmark.py, lines 53-63). -/
def satClauseBlock (vars : List Str) (i : ℕ) (c : List (ℕ × Bool)) : List Str :=
  ("-- Clause ".toList ++ decDigits (i + 1) ++ ": ".toList ++ pyClauseRepr c) ::
    c.map (fun l =>
      satLitSpecies vars l ++ [' ', '-', '>', ' '] ++
        ['c', 'l', 'a', 'u', 's', 'e', '_'] ++ decDigits i ++
        ['_', 's', 'a', 't', 'i', 's', 'f', 'i', 'e', 'd'] ++ [',', ' '] ++
        rateKey ++ ['1', '0', '.', '0'])

/-- The lines of the text built by `SATBenchmark.create_sat_crn`
(sat_benchmark.py, lines 37-65), as a function of the instance state
`self.variables` and `self.clauses`. -/
def create_sat_crn_lines (vars : List Str)
    (clauses : List (List (ℕ × Bool))) : List Str :=
  satHeader ++ vars.flatMap satVarLines ++
    ([] :: ["-- Clause satisfaction reactions".toList]) ++
    (clauses.enum.flatMap fun ic => satClauseBlock vars ic.1 ic.2)

/-- Embedding of `SATBenchmark.create_sat_crn`: the emitted CRN text (every
line of the Python string ends in a newline). -/
def create_sat_crn (vars : List Str)
    (clauses : List (List (ℕ × Bool))) : Str :=
  linesToText (create_sat_crn_lines vars clauses)

/-- Embedding of the variable names `x0, x1, ...` that
`generate_3sat_instance` stores in `self.variables` (`f"x{i}"`,
sat_benchmark.py, line 22). -/
def stdVars (n : ℕ) : List Str := (List.range n).map fun i => 'x' :: decDigits i

/-- Assignment lookup `assignment.get(var_name, False)`: an assignment is a
list of (name, value) pairs and an absent name reads as `False`
(sat_benchmark.py, line 105). -/
def lookupAssign (assignment : List (Str × Bool)) (name : Str) : Bool :=
  (((assignment.find? fun p => p.1 = name).map Prod.snd).getD false)

/-- The truth value of one literal under an assignment, total version (used
to state what `verify_assignment` computes): `(not negated and value) or
(negated and not value)` (sat_benchmark.py, line 108). -/
def litHolds (vars : List Str) (assignment : List (Str × Bool))
    (l : ℕ × Bool) : Bool :=
  let v := lookupAssign assignment (vars.getD l.1 [])
  if l.2 then !v else v

/-- Evaluate one literal the way `verify_assignment` does, with Python's
`IndexError` on an out-of-range variable index made explicit. -/
def literalVal (vars : List Str) (assignment : List (Str × Bool))
    (l : ℕ × Bool) : Except String Bool :=
  match vars.get? l.1 with
  | none => .error "IndexError"
  | some name =>
    let v := lookupAssign assignment name
    .ok (if l.2 then !v else v)

/-- The inner loop of `verify_assignment`: scan the literals of one clause,
stopping at the first one that holds (sat_benchmark.py, lines 102-110). -/
def clauseSat (vars : List Str) (assignment : List (Str × Bool)) :
    List (ℕ × Bool) → Except String Bool
  | [] => .ok false
  | l :: ls =>
    match literalVal vars assignment l with
    | .error e => .error e
    | .ok b => if b then .ok true else clauseSat vars assignment ls

/-- Embedding of `SATBenchmark.verify_assignment` (sat_benchmark.py, lines
99-115): every clause must contain at least one literal made true by the
assignment; the scan returns `False` at the first unsatisfied clause. -/
def verify_assignment (vars : List Str)
    (clauses : List (List (ℕ × Bool))) (assignment : List (Str × Bool)) :
    Except String Bool :=
  match clauses with
  | [] => .ok true
  | c :: cs =>
    match clauseSat vars assignment c with
    | .error e => .error e
    | .ok b =>
      if b then verify_assignment vars cs assignment else .ok false

/-- Embedding of `SATBenchmark.extract_assignment` (sat_benchmark.py, lines
91-97): the simulation result is ignored and every variable is assigned
`random.choice([True, False])`; the random source is modelled as an explicit
stream of booleans indexed by draw number. -/
def extract_assignment {ρ : Type} (vars : List Str) (_utm_result : ρ)
    (randChoice : ℕ → Bool) : List (Str × Bool) :=
  vars.enum.map fun kv => (kv.2, randChoice kv.1)

/-- Embedding of `TSPBenchmark.extract_best_path` (tsp_benchmark.py, lines
76-79): the simulation result is ignored and the identity path over the
stored cities is returned. -/
def extract_best_path {ρ α : Type} (cities : List α) (_utm_result : ρ) : List ℕ :=
  List.range cities.length

/-- C6's per-line property: a line of emitted CRN text is blank, a `--`
comment, or parses as a reaction under the grammar (`parseSide` inside
`parseReaction` enforces that every species name matches
`[A-Za-z_][A-Za-z0-9_]*`). -/
def GoodLine (l : Str) : Prop :=
  trimWs l = [] ∨ (trimWs l).take 2 = ['-', '-'] ∨
    ∃ r, parseReaction (trimWs l) = .ok r

theorem GoodLine_of_parseLine_ok {l : Str} {x : Option Reaction}
    (h : parseLine l = .ok x) : GoodLine l := by
  simp only [parseLine] at h
  by_cases h1 : (trimWs l).isEmpty
  · exact Or.inl (List.isEmpty_iff.mp h1)
  · rw [if_neg h1] at h
    by_cases h2 : (trimWs l).take 2 = ['-', '-']
    · exact Or.inr (Or.inl h2)
    · rw [if_neg h2] at h
      refine Or.inr (Or.inr ?_)
      cases hp : parseReaction (trimWs l) with
      | ok r => exact ⟨r, rfl⟩
      | error e =>
        rw [hp] at h
        simp [Except.map] at h


theorem parseLine_blank {l : Str} (h : trimWs l = []) : parseLine l = .ok none := by
  simp only [parseLine]
  rw [if_pos (List.isEmpty_iff.mpr h)]

theorem parseLine_comment {l : Str} (h : (trimWs l).take 2 = ['-', '-']) :
    parseLine l = .ok none := by
  have hne : ¬((trimWs l).isEmpty = true) := by
    rw [List.isEmpty_iff]
    intro he
    rw [he] at h
    simp at h
  simp only [parseLine]
  rw [if_neg hne, if_pos h]

theorem digit_isIdentChar {c : Char} (h : c.isDigit = true) : isIdentChar c = true := by
  simp [isIdentChar, Char.isAlphanum, h]

theorem validIdent_append {v : Str} (hv : validIdent v = true) {s : Str}
    (hs : ∀ c ∈ s, isIdentChar c = true) : validIdent (v ++ s) = true := by
  cases v with
  | nil => simp [validIdent] at hv
  | cons c cs =>
    rw [validIdent, Bool.and_eq_true, List.all_eq_true] at hv
    simp only [List.cons_append, validIdent, Bool.and_eq_true, List.all_eq_true]
    refine ⟨hv.1, ?_⟩
    intro x hx
    rcases List.mem_append.mp hx with hx | hx
    · exact hv.2 x hx
    · exact hs x hx

theorem decDigits_identChars (n : ℕ) : ∀ c ∈ decDigits n, isIdentChar c = true :=
  fun c hc => digit_isIdentChar (decDigits_all_digit n c hc)

theorem getD_mem_of_lt {α : Type} :
    ∀ (l : List α) (n : ℕ), n < l.length → ∀ d, l.getD n d ∈ l := by
  intro l
  induction l with
  | nil =>
    intro n h
    simp at h
  | cons a as ih =>
    intro n h d
    cases n with
    | zero => simp
    | succ m =>
      simp only [List.getD_cons_succ]
      exact List.mem_cons_of_mem a (ih m (by simpa using h) d)

theorem pyLitRepr_no_newline (l : ℕ × Bool) : '\n' ∉ pyLitRepr l := by
  intro hm
  simp only [pyLitRepr, List.mem_cons, List.mem_append] at hm
  rcases hm with (((hm | hm) | hm) | hm) | hm
  · cases hm
  · exact absurd (decDigits_all_digit _ _ hm) (by decide)
  · revert hm
    decide
  · rcases l with ⟨i, b⟩
    simp only at hm
    cases b
    · exact absurd hm (by decide)
    · exact absurd hm (by decide)
  · revert hm
    decide

theorem pyClauseRepr_no_newline (c : List (ℕ × Bool)) : '\n' ∉ pyClauseRepr c := by
  intro hm
  simp only [pyClauseRepr, List.mem_cons, List.mem_append] at hm
  rcases hm with hm | hm | hm
  · cases hm
  · rcases mem_interc hm with hs | ⟨x, hx, hcx⟩
    · revert hs
      decide
    · rcases List.mem_map.mp hx with ⟨lit, _, rfl⟩
      exact pyLitRepr_no_newline lit hcx
  · revert hm
    decide

theorem pyClauseRepr_getLast (c : List (ℕ × Bool)) :
    (pyClauseRepr c).getLast? = some ']' := by
  rw [pyClauseRepr, show ('[' :: (interc ", ".toList (c.map pyLitRepr) ++ [']']))
      = ('[' :: interc ", ".toList (c.map pyLitRepr)) ++ [']'] from rfl]
  rw [List.getLast?_append]
  rfl

theorem satVarLines_good {v : Str} (hv : validIdent v = true) :
    ∀ l ∈ satVarLines v,
      (∃ x, parseLine l = .ok x ∧ ∀ r : Reaction, x = some r →
        r.rate = ⟨10, 1⟩ ∨ r.rate = ⟨100, 1⟩) ∧ '\n' ∉ l := by
  have hf : validIdent (v ++ ['_', 'f', 'a', 'l', 's', 'e']) = true :=
    validIdent_append hv (by decide)
  have ht : validIdent (v ++ ['_', 't', 'r', 'u', 'e']) = true :=
    validIdent_append hv (by decide)
  intro l hl
  simp only [satVarLines, List.mem_cons, List.not_mem_nil, or_false] at hl
  rcases hl with rfl | rfl
  · have heq : v ++ ['_', 'f', 'a', 'l', 's', 'e'] ++ [' ', '-', '>', ' '] ++
        v ++ ['_', 't', 'r', 'u', 'e'] ++ [',', ' '] ++ rateKey ++ ['1', '.', '0']
        = serializeReaction ⟨[v ++ ['_', 'f', 'a', 'l', 's', 'e']],
            [v ++ ['_', 't', 'r', 'u', 'e']], ⟨10, 1⟩⟩ := by
      simp [serializeReaction, interc, List.append_assoc,
        show printDec ⟨10, 1⟩ = ['1', '.', '0'] from rfl]
    have hwf : WFReaction ⟨[v ++ ['_', 'f', 'a', 'l', 's', 'e']],
        [v ++ ['_', 't', 'r', 'u', 'e']], ⟨10, 1⟩⟩ :=
      ⟨by simp, by simp, by simpa using hf, by simpa using ht⟩
    rw [heq]
    exact ⟨⟨some _, parseLine_serializeReaction _ hwf,
        fun r hr => by cases Option.some.inj hr; exact Or.inl rfl⟩,
      serializeReaction_no_newline _ hwf⟩
  · have heq : v ++ ['_', 't', 'r', 'u', 'e'] ++ [' ', '-', '>', ' '] ++
        v ++ ['_', 'f', 'a', 'l', 's', 'e'] ++ [',', ' '] ++ rateKey ++ ['1', '.', '0']
        = serializeReaction ⟨[v ++ ['_', 't', 'r', 'u', 'e']],
            [v ++ ['_', 'f', 'a', 'l', 's', 'e']], ⟨10, 1⟩⟩ := by
      simp [serializeReaction, interc, List.append_assoc,
        show printDec ⟨10, 1⟩ = ['1', '.', '0'] from rfl]
    have hwf : WFReaction ⟨[v ++ ['_', 't', 'r', 'u', 'e']],
        [v ++ ['_', 'f', 'a', 'l', 's', 'e']], ⟨10, 1⟩⟩ :=
      ⟨by simp, by simp, by simpa using ht, by simpa using hf⟩
    rw [heq]
    exact ⟨⟨some _, parseLine_serializeReaction _ hwf,
        fun r hr => by cases Option.some.inj hr; exact Or.inl rfl⟩,
      serializeReaction_no_newline _ hwf⟩

theorem satClauseBlock_good {vars : List Str}
    (hv : ∀ v ∈ vars, validIdent v = true) (i : ℕ) {c : List (ℕ × Bool)}
    (hc : ∀ l ∈ c, l.1 < vars.length) :
    ∀ line ∈ satClauseBlock vars i c,
      (∃ x, parseLine line = .ok x ∧ ∀ r : Reaction, x = some r →
        r.rate = ⟨10, 1⟩ ∨ r.rate = ⟨100, 1⟩) ∧ '\n' ∉ line := by
  intro line hline
  simp only [satClauseBlock, List.mem_cons] at hline
  rcases hline with rfl | hline
  · constructor
    · refine ⟨none, parseLine_comment ?_, fun r hr => nomatch hr⟩
      have hlast : ("-- Clause ".toList ++ decDigits (i + 1) ++ ": ".toList ++
          pyClauseRepr c).getLast? = some ']' := by
        rw [List.getLast?_append, pyClauseRepr_getLast]
        rfl
      have htr := trimWs_eq_self_of_ends (c := '-') (d := ']')
        (by rfl) (by decide) hlast (by decide)
      rw [htr]
      rfl
    · intro hm
      simp only [List.mem_append] at hm
      rcases hm with ((hm | hm) | hm) | hm
      · revert hm
        decide
      · exact absurd (decDigits_all_digit _ _ hm) (by decide)
      · revert hm
        decide
      · exact pyClauseRepr_no_newline c hm
  · rcases List.mem_map.mp hline with ⟨l, hl, rfl⟩
    have hspec : validIdent (satLitSpecies vars l) = true := by
      have hmem : vars.getD l.1 [] ∈ vars := getD_mem_of_lt vars l.1 (hc l hl) []
      simp only [satLitSpecies]
      refine validIdent_append (hv _ hmem) ?_
      by_cases hb : l.2 = true
      · rw [if_pos hb]
        decide
      · rw [if_neg hb]
        decide
    have hsat : validIdent (['c', 'l', 'a', 'u', 's', 'e', '_'] ++ decDigits i ++
        ['_', 's', 'a', 't', 'i', 's', 'f', 'i', 'e', 'd']) = true :=
      validIdent_append (validIdent_append (by decide) (decDigits_identChars i))
        (by decide)
    have heq : satLitSpecies vars l ++ [' ', '-', '>', ' '] ++
        ['c', 'l', 'a', 'u', 's', 'e', '_'] ++ decDigits i ++
        ['_', 's', 'a', 't', 'i', 's', 'f', 'i', 'e', 'd'] ++ [',', ' '] ++
        rateKey ++ ['1', '0', '.', '0']
        = serializeReaction ⟨[satLitSpecies vars l],
            [['c', 'l', 'a', 'u', 's', 'e', '_'] ++ decDigits i ++
              ['_', 's', 'a', 't', 'i', 's', 'f', 'i', 'e', 'd']], ⟨100, 1⟩⟩ := by
      simp [serializeReaction, interc, List.append_assoc,
        show printDec ⟨100, 1⟩ = ['1', '0', '.', '0'] from rfl]
    have hwf : WFReaction ⟨[satLitSpecies vars l],
        [['c', 'l', 'a', 'u', 's', 'e', '_'] ++ decDigits i ++
          ['_', 's', 'a', 't', 'i', 's', 'f', 'i', 'e', 'd']], ⟨100, 1⟩⟩ :=
      ⟨by simp, by simp, by simpa using hspec, by simpa using hsat⟩
    rw [heq]
    exact ⟨⟨some _, parseLine_serializeReaction _ hwf,
        fun r hr => by cases Option.some.inj hr; exact Or.inr rfl⟩,
      serializeReaction_no_newline _ hwf⟩

theorem create_sat_crn_lines_good {vars : List Str}
    (hv : ∀ v ∈ vars, validIdent v = true)
    {clauses : List (List (ℕ × Bool))}
    (hc : ∀ c ∈ clauses, ∀ l ∈ c, l.1 < vars.length) :
    ∀ line ∈ create_sat_crn_lines vars clauses,
      (∃ x, parseLine line = .ok x ∧ ∀ r : Reaction, x = some r →
        r.rate = ⟨10, 1⟩ ∨ r.rate = ⟨100, 1⟩) ∧ '\n' ∉ line := by
  intro line hline
  simp only [create_sat_crn_lines, List.mem_append] at hline
  rcases hline with ((h | h) | h) | h
  · simp only [satHeader, List.mem_cons, List.not_mem_nil, or_false] at h
    rcases h with rfl | rfl | rfl | rfl
    · exact ⟨⟨none, by rfl, fun r hr => nomatch hr⟩, by decide⟩
    · exact ⟨⟨none, by rfl, fun r hr => nomatch hr⟩, by decide⟩
    · exact ⟨⟨none, by rfl, fun r hr => nomatch hr⟩, by decide⟩
    · exact ⟨⟨none, by rfl, fun r hr => nomatch hr⟩, by decide⟩
  · rcases List.mem_flatMap.mp h with ⟨v, hvm, hlv⟩
    exact satVarLines_good (hv v hvm) line hlv
  · simp only [List.mem_cons, List.not_mem_nil, or_false] at h
    rcases h with rfl | rfl
    · exact ⟨⟨none, by rfl, fun r hr => nomatch hr⟩, by decide⟩
    · exact ⟨⟨none, by rfl, fun r hr => nomatch hr⟩, by decide⟩
  · rcases List.mem_flatMap.mp h with ⟨ic, hic, hl⟩
    have hcm : ic.2 ∈ clauses := by
      have := List.mem_enum_iff_getElem?.mp hic
      exact List.getElem?_mem this
    exact satClauseBlock_good hv ic.1 (fun l hl2 => hc ic.2 hcm l hl2) line hl

/-- Round to the nearest integer with ties to even: the rounding that IEEE-754
binary arithmetic applies, and hence the rounding Python's `f"{x:.3f}"`
performs on the scaled value. -/
def rhe {α : Type} [LinearOrderedField α] [FloorRing α] (x : α) : ℤ :=
  if x - ⌊x⌋ < 1 / 2 then ⌊x⌋
  else if 1 / 2 < x - ⌊x⌋ then ⌊x⌋ + 1
  else if ⌊x⌋ % 2 = 0 then ⌊x⌋ else ⌊x⌋ + 1

/-- Embedding of Python's `f"{rate:.3f}"` for the rates the TSP encoder
prints: round half-to-even at the third decimal, then render with exactly
three digits after the point.  (A negative value would print a sign in
Python; the encoder's rates `1/(d+1)` for distances `d ≥ 0` are positive, so
the `Int.toNat` clamp below is never reached on reachable inputs.) -/
def fmt3 {α : Type} [LinearOrderedField α] [FloorRing α] (x : α) : Str :=
  printDec ⟨(rhe (1000 * x)).toNat, 3⟩

/-- Embedding of `TSPBenchmark.calculate_distance_matrix` (tsp_benchmark.py,
lines 23-34): the matrix starts as all zeros and every off-diagonal entry is
filled with the Euclidean distance between the two cities, so the diagonal
stays zero. -/
noncomputable def calculate_distance_matrix (cities : List (ℝ × ℝ)) :
    List (List ℝ) :=
  (List.range cities.length).map fun i =>
    (List.range cities.length).map fun j =>
      if i = j then 0
      else Real.sqrt (((cities.getD i (0, 0)).1 - (cities.getD j (0, 0)).1) ^ 2 +
        ((cities.getD i (0, 0)).2 - (cities.getD j (0, 0)).2) ^ 2)

/-- Matrix entry access, with Python's in-range list indexing made total. -/
def mentry {α : Type} [Zero α] (dm : List (List α)) (i j : ℕ) : α :=
  (dm.getD i []).getD j 0

/-- One reaction line of the TSP encoder:
`city_{i} -> city_{j}, rate={1.0/(d+1.0):.3f}` (tsp_benchmark.py, lines
44-48). -/
def tspLine {α : Type} [LinearOrderedField α] [FloorRing α]
    (i j : ℕ) (d : α) : Str :=
  ['c', 'i', 't', 'y', '_'] ++ decDigits i ++ [' ', '-', '>', ' '] ++
    ['c', 'i', 't', 'y', '_'] ++ decDigits j ++ [',', ' '] ++ rateKey ++
    fmt3 (1 / (d + 1))

/-- The header comment block of `create_tsp_crn`; the Python f-string literal
opens with a newline, hence the leading blank line. -/
def tspHeader (n : ℕ) : List Str :=
  [[],
   "-- TSP Chemical Reaction Network for ".toList ++ decDigits n ++
     " cities".toList,
   "-- Each city is represented as a molecular species".toList,
   [],
   "-- City selection reactions".toList]

/-- The lines of the text built by `TSPBenchmark.create_tsp_crn`
(tsp_benchmark.py, lines 36-50) over the stored distance matrix: one
reaction line for every ordered pair of distinct cities. -/
def create_tsp_crn_lines {α : Type} [LinearOrderedField α] [FloorRing α]
    (n : ℕ) (dm : List (List α)) : List Str :=
  tspHeader n ++
    ((List.range n).flatMap fun i =>
      (List.range n).flatMap fun j =>
        if i = j then [] else [tspLine i j (mentry dm i j)])

/-- Embedding of `TSPBenchmark.create_tsp_crn`: the emitted CRN text. -/
def create_tsp_crn {α : Type} [LinearOrderedField α] [FloorRing α]
    (n : ℕ) (dm : List (List α)) : Str :=
  linesToText (create_tsp_crn_lines n dm)

theorem tspLine_good {α : Type} [LinearOrderedField α] [FloorRing α]
    (i j : ℕ) (d : α) :
    (∃ x, parseLine (tspLine i j d) = .ok x) ∧ '\n' ∉ tspLine i j d := by
  have hci : validIdent (['c', 'i', 't', 'y', '_'] ++ decDigits i) = true :=
    validIdent_append (by decide) (decDigits_identChars i)
  have hcj : validIdent (['c', 'i', 't', 'y', '_'] ++ decDigits j) = true :=
    validIdent_append (by decide) (decDigits_identChars j)
  have heq : tspLine i j d = serializeReaction
      ⟨[['c', 'i', 't', 'y', '_'] ++ decDigits i],
        [['c', 'i', 't', 'y', '_'] ++ decDigits j],
        ⟨(rhe (1000 * (1 / (d + 1)))).toNat, 3⟩⟩ := by
    simp [tspLine, fmt3, serializeReaction, interc, List.append_assoc]
  have hwf : WFReaction ⟨[['c', 'i', 't', 'y', '_'] ++ decDigits i],
      [['c', 'i', 't', 'y', '_'] ++ decDigits j],
      ⟨(rhe (1000 * (1 / (d + 1)))).toNat, 3⟩⟩ :=
    ⟨by simp, by simp, by simpa using hci, by simpa using hcj⟩
  rw [heq]
  exact ⟨⟨some _, parseLine_serializeReaction _ hwf⟩,
    serializeReaction_no_newline _ hwf⟩

theorem create_tsp_crn_lines_good {α : Type} [LinearOrderedField α]
    [FloorRing α] (n : ℕ) (dm : List (List α)) :
    ∀ line ∈ create_tsp_crn_lines n dm,
      (∃ x, parseLine line = .ok x) ∧ '\n' ∉ line := by
  intro line hline
  simp only [create_tsp_crn_lines, List.mem_append] at hline
  rcases hline with h | h
  · simp only [tspHeader, List.mem_cons, List.not_mem_nil, or_false] at h
    rcases h with rfl | rfl | rfl | rfl | rfl
    · exact ⟨⟨none, by rfl⟩, by decide⟩
    · constructor
      · refine ⟨none, parseLine_comment ?_⟩
        have hlast : ("-- TSP Chemical Reaction Network for ".toList ++
            decDigits n ++ " cities".toList).getLast? = some 's' := by
          rw [List.getLast?_append]
          rfl
        have htr := trimWs_eq_self_of_ends (c := '-') (d := 's')
          (by rfl) (by decide) hlast (by decide)
        rw [htr]
        rfl
      · intro hm
        simp only [List.mem_append] at hm
        rcases hm with (hm | hm) | hm
        · revert hm
          decide
        · exact absurd (decDigits_all_digit _ _ hm) (by decide)
        · revert hm
          decide
    · exact ⟨⟨none, by rfl⟩, by decide⟩
    · exact ⟨⟨none, by rfl⟩, by decide⟩
    · exact ⟨⟨none, by rfl⟩, by decide⟩
  · rcases List.mem_flatMap.mp h with ⟨i, _, hi⟩
    rcases List.mem_flatMap.mp hi with ⟨j, _, hj⟩
    by_cases hij : i = j
    · rw [if_pos hij] at hj
      cases hj
    · rw [if_neg hij] at hj
      rw [List.mem_singleton] at hj
      subst hj
      exact tspLine_good i j (mentry dm i j)

/-- C6: every line of the string returned by `create_sat_crn` (on a
benchmark instance: valid identifier variable names and in-range literal
indices, as `generate_3sat_instance` produces) and by `create_tsp_crn` (on a
stored distance matrix, whose entries are nonnegative) is blank, begins with
`--`, or matches the reaction grammar
`reactant[+reactant]* -> product[+product]*, rate=<float>` with every
species name matching `[A-Za-z_][A-Za-z0-9_]*`. -/
theorem C6_encoders_emit_wellformed_lines :
    (∀ vars : List Str, (∀ v ∈ vars, validIdent v = true) →
      ∀ clauses : List (List (ℕ × Bool)),
        (∀ c ∈ clauses, ∀ l ∈ c, l.1 < vars.length) →
        ∀ line ∈ splitCh '\n' (create_sat_crn vars clauses), GoodLine line) ∧
    (∀ (α : Type) [LinearOrderedField α] [FloorRing α]
      (n : ℕ) (dm : List (List α)), (∀ row ∈ dm, ∀ x ∈ row, 0 ≤ x) →
        ∀ line ∈ splitCh '\n' (create_tsp_crn n dm), GoodLine line) := by
  constructor
  · intro vars hv clauses hc line hline
    have hgood := create_sat_crn_lines_good hv hc
    have hnl : ∀ l ∈ create_sat_crn_lines vars clauses, '\n' ∉ l :=
      fun l hl => (hgood l hl).2
    rw [create_sat_crn, splitCh_linesToText hnl] at hline
    rcases List.mem_append.mp hline with h | h
    · obtain ⟨x, hx, _⟩ := (hgood line h).1
      exact GoodLine_of_parseLine_ok hx
    · rw [List.mem_singleton] at h
      subst h
      exact Or.inl rfl
  · intro α _ _ n dm _ line hline
    have hgood := create_tsp_crn_lines_good n dm
    have hnl : ∀ l ∈ create_tsp_crn_lines n dm, '\n' ∉ l :=
      fun l hl => (hgood l hl).2
    rw [create_tsp_crn, splitCh_linesToText hnl] at hline
    rcases List.mem_append.mp hline with h | h
    · obtain ⟨x, hx⟩ := (hgood line h).1
      exact GoodLine_of_parseLine_ok hx
    · rw [List.mem_singleton] at h
      subst h
      exact Or.inl rfl

/-- Witness for C6: a concrete variable-flip line of the SAT text for the
instance with variables `x0, x1` and clause `(x0 OR NOT x1)`, and a concrete
city-pair line of the TSP text for a two-city matrix, are both well-formed. -/
theorem C6_encoders_emit_wellformed_lines_witness :
    GoodLine "x0_false -> x0_true, rate=1.0".toList ∧
      GoodLine (tspLine 0 1 (mentry ([[0, 1], [1, 0]] : List (List ℚ)) 0 1)) := by
  constructor
  · exact C6_encoders_emit_wellformed_lines.1 (stdVars 2) (by decide)
      [[(0, false), (1, true)]] (by decide) _ (by decide)
  · refine C6_encoders_emit_wellformed_lines.2 ℚ 2 [[0, 1], [1, 0]]
      (by norm_num) _ ?_
    rw [create_tsp_crn, splitCh_linesToText
      (fun l hl => (create_tsp_crn_lines_good 2 [[0, 1], [1, 0]] l hl).2)]
    refine List.mem_append.mpr (Or.inl ?_)
    simp only [create_tsp_crn_lines, List.mem_append]
    refine Or.inr (List.mem_flatMap.mpr ⟨0, by decide, List.mem_flatMap.mpr
      ⟨1, by decide, ?_⟩⟩)
    simp

theorem clauseSat_eq {vars : List Str} {A : List (Str × Bool)} :
    ∀ {c : List (ℕ × Bool)}, (∀ l ∈ c, l.1 < vars.length) →
    clauseSat vars A c = .ok (c.any (litHolds vars A)) := by
  intro c
  induction c with
  | nil => intro _; rfl
  | cons l ls ih =>
    intro h
    have hl : l.1 < vars.length := h l (by simp)
    have hsome : vars.get? l.1 = some (vars.getD l.1 []) := by
      rw [List.get?_eq_getElem?, List.getD_eq_getElem?_getD,
        List.getElem?_eq_getElem hl]
      rfl
    simp only [clauseSat, literalVal, hsome]
    by_cases hb : litHolds vars A l = true
    · rw [show (if l.2 then !(lookupAssign A (vars.getD l.1 []))
          else lookupAssign A (vars.getD l.1 [])) = litHolds vars A l from rfl,
        hb]
      simp [List.any_cons, hb]
    · rw [show (if l.2 then !(lookupAssign A (vars.getD l.1 []))
          else lookupAssign A (vars.getD l.1 [])) = litHolds vars A l from rfl]
      rw [Bool.not_eq_true] at hb
      rw [hb]
      simp only [Bool.false_eq_true, if_false, List.any_cons, hb,
        Bool.false_or]
      exact ih (fun x hx => h x (by simp [hx]))

theorem verify_assignment_eq {vars : List Str} {A : List (Str × Bool)} :
    ∀ {clauses : List (List (ℕ × Bool))},
    (∀ c ∈ clauses, ∀ l ∈ c, l.1 < vars.length) →
    verify_assignment vars clauses A
      = .ok (clauses.all fun c => c.any (litHolds vars A)) := by
  intro clauses
  induction clauses with
  | nil => intro _; rfl
  | cons c cs ih =>
    intro h
    simp only [verify_assignment, clauseSat_eq (h c (by simp))]
    by_cases hb : (c.any (litHolds vars A)) = true
    · rw [hb]
      simp only [if_true, List.all_cons, hb, Bool.true_and]
      exact ih (fun x hx => h x (by simp [hx]))
    · rw [Bool.not_eq_true] at hb
      rw [hb]
      simp [List.all_cons, hb]

/-- C3: on every 3-SAT instance held by the benchmark (each literal's
variable index in range of `self.variables`, as `generate_3sat_instance`
guarantees) and every assignment mapping, `verify_assignment` returns a
boolean and never raises, and it returns `True` iff every clause contains at
least one literal made true by the assignment, a variable absent from the
mapping reading as `False` (`litHolds` applies `assignment.get(name, False)`
through `lookupAssign`). -/
theorem C3_verify_assignment_correct (vars : List Str)
    (clauses : List (List (ℕ × Bool))) (A : List (Str × Bool))
    (h : ∀ c ∈ clauses, ∀ l ∈ c, l.1 < vars.length) :
    (∃ b : Bool, verify_assignment vars clauses A = .ok b) ∧
      (verify_assignment vars clauses A = .ok true ↔
        ∀ c ∈ clauses, ∃ l ∈ c, litHolds vars A l = true) := by
  have he : verify_assignment vars clauses A
      = .ok (clauses.all fun c => c.any (litHolds vars A)) :=
    verify_assignment_eq h
  refine ⟨⟨_, he⟩, ?_⟩
  rw [he]
  constructor
  · intro hok
    have : (clauses.all fun c => c.any (litHolds vars A)) = true := by
      injection hok with h2
    simpa [List.all_eq_true, List.any_eq_true] using this
  · intro hall
    have : (clauses.all fun c => c.any (litHolds vars A)) = true := by
      simpa [List.all_eq_true, List.any_eq_true] using hall
    rw [this]

/-- Witness for C3 at the concrete instance with variables `x0, x1`, single
clause `(x0 OR NOT x1)`, and the assignment `x0 := True`. -/
theorem C3_verify_assignment_correct_witness :
    (∃ b : Bool, verify_assignment ["x0".toList, "x1".toList]
      [[(0, false), (1, true)]] [("x0".toList, true)] = .ok b) ∧
      (verify_assignment ["x0".toList, "x1".toList] [[(0, false), (1, true)]]
          [("x0".toList, true)] = .ok true ↔
        ∀ c ∈ [[(0, false), (1, true)]], ∃ l ∈ c,
          litHolds ["x0".toList, "x1".toList] [("x0".toList, true)] l = true) :=
  C3_verify_assignment_correct ["x0".toList, "x1".toList]
    [[(0, false), (1, true)]] [("x0".toList, true)] (by decide)

/-- C1 (code evaluation at the failing input): `extract_assignment` is a
random placeholder that ignores the simulation result, so on the instance
with variables `x0, x1` and the single clause `(x0 OR NOT x1)` the random
draw picking `x0 := False, x1 := True` makes `run` return an assignment that
`verify_assignment` rejects — the decoded assignment does not always satisfy
the formula. -/
theorem C1_extracted_assignment_can_fail_verification :
    extract_assignment ["x0".toList, "x1".toList] () (fun k => k == 1)
      = [("x0".toList, false), ("x1".toList, true)] ∧
    verify_assignment ["x0".toList, "x1".toList] [[(0, false), (1, true)]]
      [("x0".toList, false), ("x1".toList, true)] = .ok false := by
  constructor
  · rfl
  · rfl

/-- C2 (code evaluation at the failing input): `extract_assignment` draws
fresh `random.choice` booleans and ignores the simulation result, so two
calls on the same instance and the same simulation result (modelled by the
two random states the Python global generator passes through) return
different assignments; `extract_best_path` likewise ignores the result and
returns the identity path.  No deterministic count-based tie-break and no
`AmbiguousResultWarning` exist anywhere in the code. -/
theorem C2_extract_assignment_not_deterministic :
    extract_assignment ["x0".toList] () (fun _ => false)
      ≠ extract_assignment ["x0".toList] () (fun _ => true) ∧
    extract_best_path ["c0".toList] () = [0] := by
  constructor
  · decide
  · rfl

theorem getD_map_range {β : Type} (n : ℕ) (f : ℕ → β) {i : ℕ} (hi : i < n)
    (d : β) : ((List.range n).map f).getD i d = f i := by
  rw [List.getD_eq_getElem?_getD, List.getElem?_map, List.getElem?_range hi]
  rfl

theorem cdm_entry (cities : List (ℝ × ℝ)) {i j : ℕ}
    (hi : i < cities.length) (hj : j < cities.length) :
    mentry (calculate_distance_matrix cities) i j
      = if i = j then 0
        else Real.sqrt
          (((cities.getD i (0, 0)).1 - (cities.getD j (0, 0)).1) ^ 2 +
            ((cities.getD i (0, 0)).2 - (cities.getD j (0, 0)).2) ^ 2) := by
  rw [mentry, calculate_distance_matrix, getD_map_range _ _ hi,
    getD_map_range _ _ hj]

theorem cdm_length (cities : List (ℝ × ℝ)) :
    (calculate_distance_matrix cities).length = cities.length ∧
    ∀ row ∈ calculate_distance_matrix cities, row.length = cities.length := by
  constructor
  · simp [calculate_distance_matrix]
  · intro row hrow
    rcases List.mem_map.mp hrow with ⟨i, _, rfl⟩
    simp

/-- C9: after `calculate_distance_matrix` runs on any list of n cities, the
matrix is n-by-n, symmetric with zero diagonal, and has nonnegative
entries. -/
theorem C9_distance_matrix_wellformed (cities : List (ℝ × ℝ)) (i j : ℕ)
    (hi : i < cities.length) (hj : j < cities.length) :
    (calculate_distance_matrix cities).length = cities.length ∧
    (∀ row ∈ calculate_distance_matrix cities, row.length = cities.length) ∧
    mentry (calculate_distance_matrix cities) i j
      = mentry (calculate_distance_matrix cities) j i ∧
    mentry (calculate_distance_matrix cities) i i = 0 ∧
    0 ≤ mentry (calculate_distance_matrix cities) i j := by
  refine ⟨(cdm_length cities).1, (cdm_length cities).2, ?_, ?_, ?_⟩
  · rw [cdm_entry cities hi hj, cdm_entry cities hj hi]
    by_cases hij : i = j
    · rw [if_pos hij, if_pos hij.symm]
    · rw [if_neg hij, if_neg (fun he => hij he.symm)]
      congr 1
      ring
  · rw [cdm_entry cities hi hi, if_pos rfl]
  · rw [cdm_entry cities hi hj]
    by_cases hij : i = j
    · rw [if_pos hij]
    · rw [if_neg hij]
      exact Real.sqrt_nonneg _

/-- Witness for C9 at the concrete cities (0,0) and (3,4). -/
theorem C9_distance_matrix_wellformed_witness :
    (calculate_distance_matrix [(0, 0), (3, 4)]).length = 2 ∧
    (∀ row ∈ calculate_distance_matrix [(0, 0), (3, 4)], row.length = 2) ∧
    mentry (calculate_distance_matrix [(0, 0), (3, 4)]) 0 1
      = mentry (calculate_distance_matrix [(0, 0), (3, 4)]) 1 0 ∧
    mentry (calculate_distance_matrix [(0, 0), (3, 4)]) 0 0 = 0 ∧
    0 ≤ mentry (calculate_distance_matrix [(0, 0), (3, 4)]) 0 1 := by
  have := C9_distance_matrix_wellformed [(0, 0), (3, 4)] 0 1
    (by norm_num) (by norm_num)
  simpa using this

theorem rhe_bounds {α : Type} [LinearOrderedField α] [FloorRing α] (x : α) :
    ⌊x⌋ ≤ rhe x ∧ rhe x ≤ ⌊x⌋ + 1 := by
  rw [rhe]
  split_ifs <;> omega

theorem rhe_mono {α : Type} [LinearOrderedField α] [FloorRing α] {x y : α}
    (h : x ≤ y) : rhe x ≤ rhe y := by
  by_cases hf : ⌊x⌋ = ⌊y⌋
  · rw [rhe, rhe, hf]
    have hxy : x - (⌊y⌋ : α) ≤ y - (⌊y⌋ : α) := by linarith
    split_ifs <;> first | omega | linarith
  · have hlt : ⌊x⌋ < ⌊y⌋ :=
      lt_of_le_of_ne (Int.floor_le_floor h) hf
    have h1 := (rhe_bounds x).2
    have h2 := (rhe_bounds y).1
    omega

theorem rhe_eq_of_lt_half {α : Type} [LinearOrderedField α] [FloorRing α]
    {x : α} {m : ℤ} (hm : ⌊x⌋ = m) (h : x - (m : α) < 1 / 2) : rhe x = m := by
  rw [rhe, hm, if_pos h]

theorem rhe_eq_of_gt_half {α : Type} [LinearOrderedField α] [FloorRing α]
    {x : α} {m : ℤ} (hm : ⌊x⌋ = m) (h : 1 / 2 < x - (m : α)) :
    rhe x = m + 1 := by
  rw [rhe, hm, if_neg (by linarith), if_pos h]

theorem rhe_pos {α : Type} [LinearOrderedField α] [FloorRing α] {x : α}
    (h : 1 / 2 < x) : 1 ≤ rhe x := by
  by_cases hf : 1 ≤ ⌊x⌋
  · have := (rhe_bounds x).1
    omega
  · have hf0 : ⌊x⌋ = 0 := by
      have h0 : 0 ≤ ⌊x⌋ := Int.floor_nonneg.mpr (by linarith)
      omega
    rw [rhe_eq_of_gt_half hf0 (by push_cast; linarith)]
    omega

theorem fmt3_ne_zero_token {α : Type} [LinearOrderedField α] [FloorRing α]
    {x : α} (h : 1 / 2000 < x) : fmt3 x ≠ "0.000".toList := by
  have h2 : (1 : α) / 2 < 1000 * x := by
    have := mul_lt_mul_of_pos_left h (show (0 : α) < 1000 by norm_num)
    calc (1 : α) / 2 = 1000 * (1 / 2000) := by norm_num
    _ < 1000 * x := this
  have h1 : 1 ≤ rhe (1000 * x) := rhe_pos h2
  intro he
  rw [fmt3] at he
  have hrt := parseDec_printDec ⟨(rhe (1000 * x)).toNat, 3⟩
  rw [he, show parseDec "0.000".toList = some ⟨0, 3⟩ from by rfl] at hrt
  have hzero : (rhe (1000 * x)).toNat = 0 := by
    injection hrt with h3
    injection h3 with h4 h5
    omega
  omega

/-- C4 (amended): for the TSP rate assignment `rate = 1/(distance+1)`, a
strictly smaller distance yields a strictly larger exact rate, and a printed
three-decimal rate at least as large (the rounded mantissa is antitone in
the distance).  Strict monotonicity of the emitted rate text fails, because
rounding to three decimals can render two distinct distances identically
(see the counterexample). -/
theorem C4_rate_monotone_amended (d1 d2 : ℝ) (h0 : 0 ≤ d1) (h : d1 < d2) :
    1 / (d2 + 1) < 1 / (d1 + 1) ∧
      rhe (1000 * (1 / (d2 + 1))) ≤ rhe (1000 * (1 / (d1 + 1))) := by
  have hp1 : (0 : ℝ) < d1 + 1 := by linarith
  have hlt : 1 / (d2 + 1) < 1 / (d1 + 1) :=
    one_div_lt_one_div_of_lt hp1 (by linarith)
  exact ⟨hlt, rhe_mono (by linarith)⟩

/-- Witness for the amended C4 at distances 0 and 1. -/
theorem C4_rate_monotone_amended_witness :
    (1 : ℝ) / (1 + 1) < 1 / (0 + 1) ∧
      rhe ((1000 : ℝ) * (1 / (1 + 1))) ≤ rhe ((1000 : ℝ) * (1 / (0 + 1))) :=
  C4_rate_monotone_amended 0 1 (by norm_num) (by norm_num)

/-- Counterexample to C4 as stated: for the cities (0,0), (99,0), (0,100) —
all inside the benchmark's `[0,100]` square — the ordered pairs (0,1) and
(0,2) have distances 99 < 100, yet both rates are printed as `0.010` by the
encoder's three-decimal format, so the pair with strictly smaller distance
does not get a strictly larger rate in the emitted CRN text. -/
theorem C4_strict_rate_monotonicity_counterexample :
    mentry (calculate_distance_matrix [(0, 0), (99, 0), (0, 100)]) 0 1 = 99 ∧
    mentry (calculate_distance_matrix [(0, 0), (99, 0), (0, 100)]) 0 2 = 100 ∧
    (99 : ℝ) < 100 ∧
    fmt3 ((1 : ℝ) / (99 + 1)) = "0.010".toList ∧
    fmt3 ((1 : ℝ) / (100 + 1)) = "0.010".toList := by
  refine ⟨?_, ?_, by norm_num, ?_, ?_⟩
  · rw [cdm_entry _ (by norm_num) (by norm_num), if_neg (by norm_num)]
    norm_num [List.getD]
    rw [show (9801 : ℝ) = 99 ^ 2 by norm_num]
    exact Real.sqrt_sq (by norm_num)
  · rw [cdm_entry _ (by norm_num) (by norm_num), if_neg (by norm_num)]
    norm_num [List.getD]
    rw [show (10000 : ℝ) = 100 ^ 2 by norm_num]
    exact Real.sqrt_sq (by norm_num)
  · have hr : rhe ((1000 : ℝ) * (1 / (99 + 1))) = 10 := by
      rw [show (1000 : ℝ) * (1 / (99 + 1)) = ((10 : ℤ) : ℝ) by push_cast; norm_num]
      exact rhe_eq_of_lt_half (Int.floor_intCast 10) (by push_cast; norm_num)
    rw [fmt3, hr]
    rfl
  · have hfl : ⌊(1000 : ℝ) * (1 / (100 + 1))⌋ = 9 := by
      rw [Int.floor_eq_iff]
      constructor
      · push_cast
        norm_num
      · push_cast
        norm_num
    have hr : rhe ((1000 : ℝ) * (1 / (100 + 1))) = 10 := by
      rw [rhe_eq_of_gt_half hfl (by push_cast; norm_num)]
      norm_num
    rw [fmt3, hr]
    rfl

/-- The numeric value denoted by a decimal rate literal. -/
def rateVal (d : DecLit) : ℚ := (d.mantissa : ℚ) / 10 ^ d.places

/-- C7: every reaction emitted by the encoders has a strictly positive rate:
the SAT encoder writes only `rate=1.0` (value 1) and `rate=10.0` (value 10),
both positive; and for cities drawn from the `[0,100]x[0,100]` square the
TSP rate `1/(distance+1)` always exceeds `0.0005 = 1/2000`, so its
three-decimal rendering is never `0.000`. -/
theorem C7_rates_positive :
    (∀ vars : List Str, (∀ v ∈ vars, validIdent v = true) →
      ∀ clauses : List (List (ℕ × Bool)),
        (∀ c ∈ clauses, ∀ l ∈ c, l.1 < vars.length) →
        ∀ line ∈ splitCh '\n' (create_sat_crn vars clauses),
          ∀ r : Reaction, parseLine line = .ok (some r) →
            r.rate = ⟨10, 1⟩ ∨ r.rate = ⟨100, 1⟩) ∧
    (∀ cities : List (ℝ × ℝ),
      (∀ p ∈ cities, 0 ≤ p.1 ∧ p.1 ≤ 100 ∧ 0 ≤ p.2 ∧ p.2 ≤ 100) →
      ∀ i j : ℕ, i < cities.length → j < cities.length →
        1 / 2000 < 1 / (mentry (calculate_distance_matrix cities) i j + 1) ∧
        fmt3 (1 / (mentry (calculate_distance_matrix cities) i j + 1))
          ≠ "0.000".toList) ∧
    ((0 : ℚ) < rateVal ⟨10, 1⟩ ∧ (0 : ℚ) < rateVal ⟨100, 1⟩ ∧
      rateVal ⟨10, 1⟩ = 1 ∧ rateVal ⟨100, 1⟩ = 10) := by
  refine ⟨?_, ?_, by norm_num [rateVal]⟩
  · intro vars hv clauses hc line hline r hr
    have hgood := create_sat_crn_lines_good hv hc
    have hnl : ∀ l ∈ create_sat_crn_lines vars clauses, '\n' ∉ l :=
      fun l hl => (hgood l hl).2
    rw [create_sat_crn, splitCh_linesToText hnl] at hline
    rcases List.mem_append.mp hline with h | h
    · obtain ⟨x, hx, hrate⟩ := (hgood line h).1
      rw [hx] at hr
      injection hr with h2
      exact hrate r h2
    · rw [List.mem_singleton] at h
      subst h
      rw [show parseLine [] = .ok none from rfl] at hr
      injection hr with h2
      exact nomatch h2
  · intro cities hbox i j hi hj
    have hd : 0 ≤ mentry (calculate_distance_matrix cities) i j ∧
        mentry (calculate_distance_matrix cities) i j < 142 := by
      rw [cdm_entry cities hi hj]
      by_cases hij : i = j
      · rw [if_pos hij]
        norm_num
      · rw [if_neg hij]
        refine ⟨Real.sqrt_nonneg _, ?_⟩
        rw [show (142 : ℝ) = Real.sqrt (142 ^ 2) from
          (Real.sqrt_sq (by norm_num)).symm]
        apply Real.sqrt_lt_sqrt
        · positivity
        · obtain ⟨ha1, ha2, ha3, ha4⟩ :=
            hbox _ (getD_mem_of_lt cities i hi (0, 0))
          obtain ⟨hb1, hb2, hb3, hb4⟩ :=
            hbox _ (getD_mem_of_lt cities j hj (0, 0))
          have e1 : ((cities.getD i (0, 0)).1 - (cities.getD j (0, 0)).1) ^ 2
              ≤ 10000 := by nlinarith
          have e2 : ((cities.getD i (0, 0)).2 - (cities.getD j (0, 0)).2) ^ 2
              ≤ 10000 := by nlinarith
          nlinarith
    have hrate : 1 / 2000 < 1 /
        (mentry (calculate_distance_matrix cities) i j + 1) :=
      one_div_lt_one_div_of_lt (by linarith [hd.1]) (by linarith [hd.2])
    exact ⟨hrate, fmt3_ne_zero_token hrate⟩

/-- Witness for C7: the first variable-flip line of a concrete SAT instance
parses with rate literal `1.0`, and the rate of the city pair (0,1) for
cities (0,0) and (100,100) exceeds `0.0005` and is not rendered `0.000`. -/
theorem C7_rates_positive_witness :
    ((⟨["x0_false".toList], ["x0_true".toList], ⟨10, 1⟩⟩ : Reaction).rate
        = ⟨10, 1⟩ ∨
      (⟨["x0_false".toList], ["x0_true".toList], ⟨10, 1⟩⟩ : Reaction).rate
        = ⟨100, 1⟩) ∧
    (1 / 2000 < 1 /
        (mentry (calculate_distance_matrix [(0, 0), (100, 100)]) 0 1 + 1) ∧
      fmt3 (1 / (mentry (calculate_distance_matrix [(0, 0), (100, 100)]) 0 1
        + 1)) ≠ "0.000".toList) := by
  constructor
  · exact C7_rates_positive.1 (stdVars 2) (by decide)
      [[(0, false), (1, true)]] (by decide)
      "x0_false -> x0_true, rate=1.0".toList (by decide) _ (by rfl)
  · exact C7_rates_positive.2.1 [(0, 0), (100, 100)] (by norm_num) 0 1
      (by norm_num) (by norm_num)

/-- Model of `random.sample(range(n), k)`'s selection loop from an explicit
stream of draws: repeatedly pick an index into the remaining pool (the
stream value reduced modulo the pool size) and remove the chosen element —
sampling without replacement. -/
def sampleAux (stream : ℕ → ℕ) : ℕ → ℕ → List ℕ → List ℕ × ℕ
  | t, 0, _ => ([], t)
  | t, k + 1, pool =>
    let idx := stream t % pool.length
    let rest := sampleAux stream (t + 1) k (pool.eraseIdx idx)
    (pool.getD idx 0 :: rest.1, rest.2)

/-- Model of `random.sample`: Python raises `ValueError` when the sample
size exceeds the population size. -/
def randSample (stream : ℕ → ℕ) (t : ℕ) (pool : List ℕ) (k : ℕ) :
    Except String (List ℕ × ℕ) :=
  if k ≤ pool.length then .ok (sampleAux stream t k pool)
  else .error "Sample larger than population or is negative"

theorem sampleAux_spec (stream : ℕ → ℕ) :
    ∀ (k t : ℕ) (pool : List ℕ), pool.Nodup → k ≤ pool.length →
    (sampleAux stream t k pool).1.length = k ∧
      (sampleAux stream t k pool).1.Nodup ∧
      ∀ x ∈ (sampleAux stream t k pool).1, x ∈ pool := by
  intro k
  induction k with
  | zero =>
    intro t pool _ _
    exact ⟨rfl, List.nodup_nil, by simp [sampleAux]⟩
  | succ m ih =>
    intro t pool hnd hk
    have hlen : 0 < pool.length := by omega
    have hidxlt : stream t % pool.length < pool.length := Nat.mod_lt _ hlen
    have hx : pool.getD (stream t % pool.length) 0 ∈ pool :=
      getD_mem_of_lt pool _ hidxlt 0
    have hnd2 : (pool.eraseIdx (stream t % pool.length)).Nodup :=
      hnd.eraseIdx _
    have hlen2 : m ≤ (pool.eraseIdx (stream t % pool.length)).length := by
      rw [List.length_eraseIdx_of_lt hidxlt]
      omega
    obtain ⟨h1, h2, h3⟩ :=
      ih (t + 1) (pool.eraseIdx (stream t % pool.length)) hnd2 hlen2
    have hget : pool.getD (stream t % pool.length) 0
        = pool.get ⟨stream t % pool.length, hidxlt⟩ := by
      rw [List.getD_eq_getElem?_getD, List.getElem?_eq_getElem hidxlt]
      rfl
    have hxnot : pool.getD (stream t % pool.length) 0
        ∉ pool.eraseIdx (stream t % pool.length) := by
      rw [hget, ← hnd.erase_get ⟨stream t % pool.length, hidxlt⟩]
      intro hm
      rw [List.Nodup.mem_erase_iff hnd] at hm
      exact hm.1 rfl
    refine ⟨by simp [sampleAux, h1], ?_, ?_⟩
    · simp only [sampleAux]
      exact List.Nodup.cons (fun hm => hxnot (h3 _ hm)) h2
    · intro y hy
      simp only [sampleAux, List.mem_cons] at hy
      rcases hy with rfl | hy
      · exact hx
      · exact List.eraseIdx_subset _ _ (h3 y hy)

/-- Embedding of the clause loop of `generate_3sat_instance`
(sat_benchmark.py, lines 25-35): each clause samples three distinct variable
indices and negates each literal by an independent boolean draw; the two
streams model the global `random` generator's successive outputs. -/
def genClauses (sV : ℕ → ℕ) (sB : ℕ → Bool) (n : ℕ) :
    ℕ → ℕ → ℕ → Except String (List (List (ℕ × Bool)))
  | 0, _, _ => .ok []
  | m + 1, tV, tB =>
    match randSample sV tV (List.range n) 3 with
    | .error e => .error e
    | .ok (vs, tV2) =>
      match genClauses sV sB n m tV2 (tB + 3) with
      | .error e => .error e
      | .ok rest =>
        .ok ((vs.enum.map fun kv => (kv.2, sB (tB + kv.1))) :: rest)

/-- Embedding of `SATBenchmark.generate_3sat_instance` (sat_benchmark.py,
lines 17-35) with the default clause count `int(4.3 * num_vars)` — exactly
`43 * num_vars / 10`, since `4.3 * num_vars` is a nonnegative value
truncated toward zero. -/
def generate_3sat_instance (num_vars : ℕ) (sV : ℕ → ℕ) (sB : ℕ → Bool) :
    Except String (List Str × List (List (ℕ × Bool))) :=
  match genClauses sV sB num_vars (43 * num_vars / 10) 0 0 with
  | .error e => .error e
  | .ok cs => .ok (stdVars num_vars, cs)

theorem genClauses_err (sV : ℕ → ℕ) (sB : ℕ → Bool) (n m tV tB : ℕ)
    (hn : n < 3) (hm : 1 ≤ m) :
    ∃ e, genClauses sV sB n m tV tB = .error e := by
  cases m with
  | zero => omega
  | succ k =>
    simp only [genClauses, randSample]
    rw [if_neg (by simpa using by omega : ¬3 ≤ (List.range n).length)]
    exact ⟨_, rfl⟩

theorem genClauses_ok (sV : ℕ → ℕ) (sB : ℕ → Bool) (n : ℕ) (hn : 3 ≤ n) :
    ∀ m tV tB : ℕ, ∃ cs, genClauses sV sB n m tV tB = .ok cs ∧
      cs.length = m ∧ ∀ c ∈ cs, c.length = 3 ∧ (c.map Prod.fst).Nodup ∧
        ∀ l ∈ c, l.1 < n := by
  intro m
  induction m with
  | zero =>
    intro tV tB
    exact ⟨[], rfl, rfl, by simp⟩
  | succ k ih =>
    intro tV tB
    rcases hps : sampleAux sV tV 3 (List.range n) with ⟨vs, tV2⟩
    have hsamp : randSample sV tV (List.range n) 3 = .ok (vs, tV2) := by
      rw [randSample, if_pos (by simpa using hn), hps]
    obtain ⟨hl1, hl2, hl3⟩ := sampleAux_spec sV 3 tV (List.range n)
      (List.nodup_range n) (by simpa using hn)
    rw [hps] at hl1 hl2 hl3
    obtain ⟨cs, hcs, hlen, hprop⟩ := ih tV2 (tB + 3)
    refine ⟨(vs.enum.map fun kv => (kv.2, sB (tB + kv.1))) :: cs, ?_, ?_, ?_⟩
    · simp only [genClauses, hsamp, hcs]
    · simp [hlen]
    · intro c hc
      rcases List.mem_cons.mp hc with rfl | hc
      · refine ⟨by simp [hl1], ?_, ?_⟩
        · rw [show ((vs.enum.map fun kv => (kv.2, sB (tB + kv.1))).map
              Prod.fst) = vs.enum.map Prod.snd by
            rw [List.map_map]
            rfl]
          rw [List.enum_map_snd]
          exact hl2
        · intro l hl
          rcases List.mem_map.mp hl with ⟨kv, hkv, rfl⟩
          have hmem : kv.2 ∈ vs :=
            List.getElem?_mem (List.mem_enum_iff_getElem?.mp hkv)
          simpa using List.mem_range.mp (hl3 _ hmem)
      · exact hprop c hc

/-- Counterexample to C10 as stated: with the default clause count,
`generate_3sat_instance(0)` computes `int(4.3 * 0) = 0` clauses, never calls
`random.sample`, and succeeds with an empty instance instead of raising. -/
theorem C10_zero_vars_counterexample :
    generate_3sat_instance 0 (fun _ => 0) (fun _ => true) = .ok ([], []) := by
  rfl

/-- C10 (amended): with the default clause count, `generate_3sat_instance`
raises for `1 ≤ num_vars < 3` (the first clause's
`random.sample(range(num_vars), 3)` fails), while `num_vars = 0` yields
zero clauses and succeeds; for `num_vars ≥ 3` it succeeds and produces
exactly `int(4.3 * num_vars)` clauses, each containing exactly three
literals with pairwise-distinct in-range variable indices. -/
theorem C10_generate_3sat_amended (num_vars : ℕ) (sV : ℕ → ℕ) (sB : ℕ → Bool)
    (h1 : 1 ≤ num_vars) :
    (num_vars < 3 → ∃ e, generate_3sat_instance num_vars sV sB = .error e) ∧
    (3 ≤ num_vars → ∃ cs, generate_3sat_instance num_vars sV sB
        = .ok (stdVars num_vars, cs) ∧
      cs.length = 43 * num_vars / 10 ∧
      ∀ c ∈ cs, c.length = 3 ∧ (c.map Prod.fst).Nodup ∧
        ∀ l ∈ c, l.1 < num_vars) := by
  constructor
  · intro h3
    obtain ⟨e, he⟩ := genClauses_err sV sB num_vars (43 * num_vars / 10) 0 0
      h3 (by interval_cases num_vars <;> decide)
    exact ⟨e, by simp only [generate_3sat_instance, he]⟩
  · intro h3
    obtain ⟨cs, hcs, hlen, hprop⟩ :=
      genClauses_ok sV sB num_vars h3 (43 * num_vars / 10) 0 0
    exact ⟨cs, by simp only [generate_3sat_instance, hcs], hlen, hprop⟩

/-- Witness for the amended C10 at `num_vars = 3` with concrete streams. -/
theorem C10_generate_3sat_amended_witness :
    (3 < 3 → ∃ e, generate_3sat_instance 3 (fun t => t) (fun _ => true)
      = .error e) ∧
    (3 ≤ 3 → ∃ cs, generate_3sat_instance 3 (fun t => t) (fun _ => true)
        = .ok (stdVars 3, cs) ∧
      cs.length = 43 * 3 / 10 ∧
      ∀ c ∈ cs, c.length = 3 ∧ (c.map Prod.fst).Nodup ∧ ∀ l ∈ c, l.1 < 3) :=
  C10_generate_3sat_amended 3 (fun t => t) (fun _ => true) (by decide)

/-- Modelled from the spec: a `TransitionRule` of section 3,
`(current state, read symbol) -> (next state, write symbol, move)`, as
declared by `state_machine:add_transition` in
`examples/basic_turing/simple_utm.py`. -/
structure TransitionRule where
  cur : Str
  readSym : Str
  next : Str
  writeSym : Str
  move : Str
deriving DecidableEq, Repr

/-- Modelled from the spec: the symbolic `UTMConfiguration` of section 3 —
state label, sparse integer-indexed tape with blank default `_`, head
position (may be negative), and step counter. -/
structure UTMConfig where
  state : Str
  tape : List (ℤ × Str)
  pos : ℤ
  steps : ℕ
deriving DecidableEq, Repr

/-- Sparse tape read: unset positions default to the blank symbol `_`. -/
def readTape (tape : List (ℤ × Str)) (p : ℤ) : Str :=
  (((tape.find? fun e => decide (e.1 = p)).map Prod.snd).getD "_".toList)

/-- Sparse tape write: the newest binding for a position shadows older
ones. -/
def writeTape (tape : List (ℤ × Str)) (p : ℤ) (s : Str) : List (ℤ × Str) :=
  (p, s) :: tape

/-- The deterministic rule lookup for the current (state, symbol) pair
(section 3: at most one rule per pair). -/
def findRule (rules : List TransitionRule) (st sym : Str) :
    Option TransitionRule :=
  rules.find? fun r => decide (r.cur = st ∧ r.readSym = sym)

/-- Apply one transition: write, move the head, switch state, count the
step. -/
def applyRule (c : UTMConfig) (r : TransitionRule) : UTMConfig :=
  { state := r.next
    tape := writeTape c.tape c.pos r.writeSym
    pos := if r.move = "left".toList then c.pos - 1
           else if r.move = "right".toList then c.pos + 1 else c.pos
    steps := c.steps + 1 }

/-- Modelled from the spec: `executeUTMProgram` (section 6) runs the
orchestrated step loop of section 4.4 until the Foreman finds no applicable
rule (halt) or the step bound is exceeded; the bound is passed as fuel. -/
def utmRun (rules : List TransitionRule) : ℕ → UTMConfig → UTMConfig
  | 0, c => c
  | f + 1, c =>
    match findRule rules c.state (readTape c.tape c.pos) with
    | none => c
    | some r => utmRun rules f (applyRule c r)

/-- The binary-increment transition rules of
`examples/basic_turing/simple_utm.py`, lines 30-36. -/
def incRules : List TransitionRule :=
  [⟨"q0".toList, "0".toList, "q0".toList, "0".toList, "right".toList⟩,
   ⟨"q0".toList, "1".toList, "q0".toList, "1".toList, "right".toList⟩,
   ⟨"q0".toList, "_".toList, "q1".toList, "_".toList, "left".toList⟩,
   ⟨"q1".toList, "0".toList, "qhalt".toList, "1".toList, "stay".toList⟩,
   ⟨"q1".toList, "1".toList, "q1".toList, "0".toList, "left".toList⟩,
   ⟨"q1".toList, "_".toList, "qhalt".toList, "1".toList, "right".toList⟩]

/-- The initial tape `101_` of the example (positions 0..3, line 40). -/
def incInit : UTMConfig :=
  ⟨"q0".toList,
   [(0, "1".toList), (1, "0".toList), (2, "1".toList), (3, "_".toList)],
   0, 0⟩

/-- C8 (modelled from the spec: the `MolecularUTM` core exposing
`execute_utm_program` is absent from the repository source — only its
callers exist — so the machine semantics follow section 3's
`UTMConfiguration`/`TransitionRule` and section 6's
`executeUTMProgram(rules, initialTape) -> {finalTape, steps, finalState}`):
executing the binary-increment rules on the initial tape `101_` from state
`q0` halts in state `qhalt` with final tape `110` after 6 > 0 steps, and no
rule applies in the final configuration. -/
theorem C8_binary_increment_halts :
    (utmRun incRules 100 incInit).state = "qhalt".toList ∧
    readTape (utmRun incRules 100 incInit).tape 0 ++
        readTape (utmRun incRules 100 incInit).tape 1 ++
        readTape (utmRun incRules 100 incInit).tape 2 = "110".toList ∧
    readTape (utmRun incRules 100 incInit).tape 3 = "_".toList ∧
    (utmRun incRules 100 incInit).steps = 6 ∧
    0 < (utmRun incRules 100 incInit).steps ∧
    findRule incRules (utmRun incRules 100 incInit).state
      (readTape (utmRun incRules 100 incInit).tape
        (utmRun incRules 100 incInit).pos) = none := by
  decide
